import Mathlib

/-!
Verification of the dependency-graph and package/target ordering core of the
Blossom build tool (`BT.Package`, `BT.Packager`, `BT.Target`, `BT.Project`).
Source files are embedded shallowly: pure computations become Lean functions,
the mutation of package types during dependency resolution becomes explicit
state passing, filesystem effects become explicit input data, and the
unbounded recursion of `processFramework` is given explicit fuel.
-/

/-! ## The dependency graph

`require('./utils/graph')` is loaded by the build tool but its implementation
is not among the repository sources. -/

/-- Modelled from the spec: the generic directed graph of `./utils/graph`
(required by the build tool, absent from the sources).  Per §4.1 of the spec:
`addVertex` registers a vertex idempotently, `addEdge` registers a directed
edge and implicitly registers both endpoints, and `topologicalSort` returns
every vertex exactly once such that for every edge (from → to) `from` appears
before `to`, breaking ties by insertion order of the vertices, and fails on a
cyclic graph.  Self-edges are disregarded by the sort: `orderFiles` itself
wires an entry self-edge onto the entry vertex and relies on the sort
succeeding, so they cannot count as cycles. -/
structure Graph where
  vertices : List String
  edges : List (String × String)
deriving DecidableEq

def Graph.empty : Graph := ⟨[], []⟩

def Graph.addVertex (g : Graph) (v : String) : Graph :=
  if v ∈ g.vertices then g else { g with vertices := g.vertices ++ [v] }

def Graph.addEdge (g : Graph) (a b : String) : Graph :=
  let g' := (g.addVertex a).addVertex b
  { g' with edges := g'.edges ++ [(a, b)] }

/-- In-degree of `v` among the `remaining` vertices, self-edges not counted. -/
def Graph.indeg (edges : List (String × String)) (remaining : List String)
    (v : String) : Nat :=
  (edges.filter (fun e => e.2 = v ∧ e.1 ≠ e.2 ∧ e.1 ∈ remaining)).length

/-- Kahn's algorithm with insertion order as the tie-break: repeatedly remove
the first remaining vertex of in-degree zero.  The fuel argument makes the
recursion structural; `topologicalSort` supplies fuel `remaining.length`,
which always suffices, so `none` means a cycle was detected. -/
def Graph.topoAux (edges : List (String × String)) :
    Nat → List String → Option (List String)
  | _, [] => some []
  | 0, _ :: _ => none
  | fuel + 1, v :: rest =>
    match (v :: rest).find? (fun w => Graph.indeg edges (v :: rest) w = 0) with
    | none => none
    | some w =>
      (Graph.topoAux edges fuel ((v :: rest).erase w)).map (fun l => w :: l)

def Graph.topologicalSort (g : Graph) : Option (List String) :=
  Graph.topoAux g.edges g.vertices.length g.vertices

/-- Well-formedness: every edge endpoint is a registered vertex.  Every graph
actually built through `addVertex`/`addEdge` satisfies this. -/
def Graph.WF (g : Graph) : Prop :=
  ∀ e ∈ g.edges, e.1 ∈ g.vertices ∧ e.2 ∈ g.vertices

instance (g : Graph) : Decidable g.WF :=
  inferInstanceAs (Decidable (∀ e ∈ g.edges, e.1 ∈ g.vertices ∧ e.2 ∈ g.vertices))

theorem Graph.WF_empty : Graph.WF Graph.empty := by
  intro e he; simp [Graph.empty] at he

theorem Graph.mem_vertices_addVertex (g : Graph) (v w : String) :
    w ∈ (g.addVertex v).vertices ↔ w ∈ g.vertices ∨ w = v := by
  unfold Graph.addVertex
  by_cases h : v ∈ g.vertices
  · simp only [if_pos h]
    constructor
    · exact fun hw => Or.inl hw
    · rintro (hw | rfl) <;> [exact hw; exact h]
  · simp only [if_neg h, List.mem_append, List.mem_singleton]

theorem Graph.WF_addVertex (g : Graph) (v : String) (h : g.WF) :
    (g.addVertex v).WF := by
  intro e he
  have hedges : (g.addVertex v).edges = g.edges := by
    unfold Graph.addVertex; split <;> rfl
  rw [hedges] at he
  obtain ⟨h1, h2⟩ := h e he
  exact ⟨(Graph.mem_vertices_addVertex g v e.1).mpr (Or.inl h1),
         (Graph.mem_vertices_addVertex g v e.2).mpr (Or.inl h2)⟩

theorem Graph.WF_addEdge (g : Graph) (a b : String) (h : g.WF) :
    (g.addEdge a b).WF := by
  intro e he
  unfold Graph.addEdge at he ⊢
  simp only [List.mem_append, List.mem_singleton] at he
  have hwf : ((g.addVertex a).addVertex b).WF :=
    Graph.WF_addVertex _ b (Graph.WF_addVertex g a h)
  rcases he with he | rfl
  · exact hwf e he
  · constructor
    · exact (Graph.mem_vertices_addVertex _ b a).mpr
        (Or.inl ((Graph.mem_vertices_addVertex g a a).mpr (Or.inr rfl)))
    · exact (Graph.mem_vertices_addVertex _ b b).mpr (Or.inr rfl)

/-- A sorted output is a permutation of the remaining vertices. -/
theorem Graph.topoAux_perm (edges : List (String × String)) :
    ∀ (fuel : Nat) (remaining l : List String),
      Graph.topoAux edges fuel remaining = some l → l.Perm remaining := by
  intro fuel
  induction fuel with
  | zero =>
    intro remaining l h
    cases remaining with
    | nil => simp [Graph.topoAux] at h; simp [← h]
    | cons v rest => simp [Graph.topoAux] at h
  | succ n ih =>
    intro remaining l h
    cases remaining with
    | nil => simp [Graph.topoAux] at h; simp [← h]
    | cons v rest =>
      cases hfind : (v :: rest).find?
          (fun w => Graph.indeg edges (v :: rest) w = 0) with
      | none => simp only [Graph.topoAux, hfind] at h; exact absurd h (by simp)
      | some w =>
        simp only [Graph.topoAux, hfind] at h
        cases hrec : Graph.topoAux edges n ((v :: rest).erase w) with
        | none => rw [hrec] at h; simp at h
        | some l' =>
          rw [hrec] at h
          simp only [Option.map_some', Option.some.injEq] at h
          have hw : w ∈ v :: rest := List.mem_of_find?_eq_some hfind
          have hperm := ih ((v :: rest).erase w) l' hrec
          rw [← h]
          exact (hperm.cons w).trans (List.perm_cons_erase hw).symm

/-- The vertices of a sorted output are exactly the graph's vertices. -/
theorem Graph.mem_topologicalSort (g : Graph) (l : List String)
    (h : g.topologicalSort = some l) : ∀ v, v ∈ l ↔ v ∈ g.vertices := by
  intro v
  exact (Graph.topoAux_perm g.edges g.vertices.length g.vertices l h).mem_iff

/-- A (simple, non-self-loop) cycle: a list of at least two distinct
vertices, each one connected to the next by an edge, with an edge closing
the loop back to the head. -/
def Graph.hasCycle (g : Graph) : Prop :=
  ∃ (v : String) (rest : List String),
    rest ≠ [] ∧ (v :: rest).Nodup ∧
    List.Chain (fun a b => (a, b) ∈ g.edges) v rest ∧
    ((v :: rest).getLast (List.cons_ne_nil v rest), v) ∈ g.edges

/-- Every element of a nodup chain has a distinct predecessor in the chain. -/
theorem chain_pred {α : Type} (r : α → α → Prop) :
    ∀ (a : α) (l : List α), List.Chain r a l → (a :: l).Nodup →
      ∀ x ∈ l, ∃ u ∈ a :: l, u ≠ x ∧ r u x := by
  intro a l
  induction l generalizing a with
  | nil => intro _ _ x hx; simp at hx
  | cons b l' ih =>
    intro hchain hnodup x hx
    rcases List.chain_cons.mp hchain with ⟨hab, hchain'⟩
    rcases List.mem_cons.mp hx with rfl | hx'
    · refine ⟨a, List.mem_cons_self a _, ?_, hab⟩
      intro hax
      rw [hax] at hnodup
      exact (List.nodup_cons.mp hnodup).1 (List.mem_cons_self x l')
    · obtain ⟨u, hu, hne, hr⟩ :=
        ih b hchain' (List.nodup_cons.mp hnodup).2 x hx'
      exact ⟨u, List.mem_cons_of_mem a hu, hne, hr⟩

/-- If a nonempty set of remaining vertices is "trapped" (each has an
incoming non-self edge from another member), Kahn's algorithm fails. -/
theorem Graph.topoAux_trapped (edges : List (String × String)) :
    ∀ (fuel : Nat) (remaining C : List String), C ≠ [] →
      (∀ v ∈ C, v ∈ remaining) →
      (∀ v ∈ C, ∃ u ∈ C, u ≠ v ∧ (u, v) ∈ edges) →
      Graph.topoAux edges fuel remaining = none := by
  intro fuel
  induction fuel with
  | zero =>
    intro remaining C hC hsub _
    cases remaining with
    | nil =>
      cases C with
      | nil => exact absurd rfl hC
      | cons c C' => exact absurd (hsub c (List.mem_cons_self c C')) (by simp)
    | cons v rest => simp [Graph.topoAux]
  | succ n ih =>
    intro remaining C hC hsub htrap
    cases remaining with
    | nil =>
      cases C with
      | nil => exact absurd rfl hC
      | cons c C' => exact absurd (hsub c (List.mem_cons_self c C')) (by simp)
    | cons v rest =>
      cases hfind : (v :: rest).find?
          (fun w => Graph.indeg edges (v :: rest) w = 0) with
      | none => simp [Graph.topoAux, hfind]
      | some w =>
        have hw0 : Graph.indeg edges (v :: rest) w = 0 := by
          have := List.find?_some hfind
          simpa using this
        have hwC : w ∉ C := by
          intro hwC
          obtain ⟨u, huC, hune, hedge⟩ := htrap w hwC
          have humem : u ∈ v :: rest := hsub u huC
          have hmem : (u, w) ∈ edges.filter
              (fun e => e.2 = w ∧ e.1 ≠ e.2 ∧ e.1 ∈ v :: rest) := by
            rw [List.mem_filter]
            exact ⟨hedge, by simp [hune, humem]⟩
          have hne0 : Graph.indeg edges (v :: rest) w ≠ 0 := by
            unfold Graph.indeg
            intro h0
            rw [List.length_eq_zero] at h0
            rw [h0] at hmem
            exact absurd hmem (List.not_mem_nil _)
          exact hne0 hw0
        have hsub' : ∀ x ∈ C, x ∈ (v :: rest).erase w := by
          intro x hxC
          refine (List.mem_erase_of_ne ?_).mpr (hsub x hxC)
          intro hxw
          rw [hxw] at hxC
          exact hwC hxC
        have hrec := ih ((v :: rest).erase w) C hC hsub' htrap
        simp [Graph.topoAux, hfind, hrec]

/-- Claim C2: for every well-formed dependency graph containing a cycle,
`topologicalSort` fails with the distinguishable cycle error (modelled as
`none`) rather than returning a partial or incorrect order. -/
theorem c2_topologicalSort_fails_on_cycle (g : Graph)
    (hwf : g.WF) (hcyc : g.hasCycle) : g.topologicalSort = none := by
  obtain ⟨v, rest, hne, hnodup, hchain, hclose⟩ := hcyc
  have htrap : ∀ x ∈ v :: rest, ∃ u ∈ v :: rest, u ≠ x ∧ (u, x) ∈ g.edges := by
    intro x hx
    rcases List.mem_cons.mp hx with hxv | hx'
    · refine ⟨(v :: rest).getLast (List.cons_ne_nil v rest),
        List.getLast_mem _, ?_, by rw [hxv]; exact hclose⟩
      intro heq
      rw [hxv] at heq
      have hlast : (v :: rest).getLast (List.cons_ne_nil v rest) ∈ rest := by
        cases rest with
        | nil => exact absurd rfl hne
        | cons b l' =>
          rw [List.getLast_cons (List.cons_ne_nil b l')]
          exact List.getLast_mem _
      rw [heq] at hlast
      exact (List.nodup_cons.mp hnodup).1 hlast
    · exact chain_pred _ v rest hchain hnodup x hx'
  apply Graph.topoAux_trapped g.edges g.vertices.length g.vertices (v :: rest)
      (List.cons_ne_nil v rest)
  · intro x hx
    obtain ⟨u, _, _, hedge⟩ := htrap x hx
    exact (hwf (u, x) hedge).2
  · exact htrap

/-! ## Character-level utilities

JavaScript strings are sequences of characters indexed by position, so the
string operations of the build tool (`slice`, `split`, regular-expression
scanning) are modelled on `List Char`, with `String.mk`/`String.data` at the
boundaries. -/

def qSingle : Char := Char.ofNat 39

def qDouble : Char := Char.ofNat 34

def carriageReturn : Char := Char.ofNat 13

def isQuote (c : Char) : Prop := c = qSingle ∨ c = qDouble

instance (c : Char) : Decidable (isQuote c) := by unfold isQuote; infer_instance

/-- Characters matched by `.` in a JavaScript regular expression (anything
but a line terminator). -/
def dotChar (c : Char) : Prop :=
  ¬(c = '\n' ∨ c = carriageReturn ∨ c.val = 8232 ∨ c.val = 8233)

instance (c : Char) : Decidable (dotChar c) := by unfold dotChar; infer_instance

/-- Model of `l.split(sep)` of JavaScript: splits on every occurrence of `sep`,
keeping empty fragments. -/
def splitOnChar (sep : Char) : List Char → List (List Char)
  | [] => [[]]
  | c :: cs =>
    let r := splitOnChar sep cs
    if c = sep then [] :: r
    else
      match r with
      | [] => [[c]]
      | g :: gs => (c :: g) :: gs

/-- Match a literal at the front of the input, returning the rest. -/
def stripLit : List Char → List Char → Option (List Char)
  | [], l => some l
  | _ :: _, [] => none
  | p :: ps, c :: cs => if c = p then stripLit ps cs else none

/-- Position after the last `/` of a path (node's `path.basename`). -/
def baseChars (p : List Char) : List Char :=
  (p.reverse.takeWhile (fun c => c ≠ '/')).reverse

def lastIdxOf (c : Char) : List Char → Option Nat
  | [] => none
  | a :: rest =>
    match lastIdxOf c rest with
    | some n => some (n + 1)
    | none => if a = c then some 0 else none

/-- Node's `path.extname`: the suffix of the basename from its last dot,
empty when there is no dot or the only dot is the leading character. -/
def extname (p : String) : String :=
  let b := baseChars p.data
  match lastIdxOf '.' b with
  | none => ""
  | some 0 => ""
  | some i => String.mk (b.drop i)

/-- Model of `s.slice(n)` of JavaScript (also `s.slice(n + 1)` patterns). -/
def sliceFrom (s : String) (n : Nat) : String := String.mk (s.data.drop n)

/-- Model of `s.slice(0, -n)` of JavaScript. -/
def sliceDropRight (s : String) (n : Nat) : String :=
  String.mk (s.data.take (s.data.length - n))

/-- Model of node's `path.join` for the argument forms the build tool uses:
two relative path segments are joined with `/`; the dot-segment
normalization `path.join` would additionally perform is not modelled (the
claims under study only involve normal-form relative paths). -/
def pathJoin (a b : String) : String :=
  if a = "" then b else if b = "" then a else a ++ "/" ++ b

/-! ## `sc_require` dependency extraction (`BT.File.scRequireDependencies`)

The source scans each statement with
`new RegExp("sc_require\\((['\"])(.*)\\1\\)")` and `re.exec`, pushing the
second capture group of the first match of each statement.  The regular
expression is modelled operationally: `exec` finds the leftmost position
where the literal `sc_require(` is followed by a quote, a greedy `.*`
capture, the same quote and `)`; greediness means the *last* possible
closing position is captured. -/

def scLit : List Char := "sc_require(".data

/-- Greedy search for the capture closed by `q :: ')'`: prefer a longer
capture (a close further right) over a shorter one; capture characters must
be matchable by `.`. -/
def lastCapture (q : Char) : List Char → Option (List Char)
  | [] => none
  | a :: rest =>
    match (if dotChar a then lastCapture q rest else none) with
    | some cap => some (a :: cap)
    | none =>
      if a = q ∧ rest.head? = some ')' then some [] else none

/-- Attempt the pattern anchored at the start of `l`. -/
def execAt (l : List Char) : Option (List Char) :=
  match stripLit scLit l with
  | none => none
  | some rest =>
    match rest with
    | [] => none
    | q :: r => if isQuote q then lastCapture q r else none

/-- Model of `re.exec(statement)`: try every start position from the left. -/
def scExec : List Char → Option (List Char)
  | [] => none
  | c :: cs =>
    match execAt (c :: cs) with
    | some cap => some cap
    | none => scExec cs

/-- The statements scanned for dependencies: the contents split into lines,
each line split on `;`. -/
def statements (contents : List Char) : List (List Char) :=
  ((splitOnChar '\n' contents).map (splitOnChar ';')).flatten

namespace BT

/-- Embedding of `BT.File.scRequireDependencies` as a function of the file contents:
one pushed capture per statement with a match, in scan order. -/
def File.scRequireDependencies (contents : String) : List String :=
  ((statements contents.data).filterMap scExec).map (fun cap => String.mk cap)

/-- A file owned by a package (`BT.PackageFile`).  `sourcePath` is the
file's path, `sourceTree`/`parentSourceTree` are the owning package's; the
file contents (read from disk in the source, compiled first for
CoffeeScript files) are explicit input data. -/
structure PackageFile where
  sourcePath : String
  sourceTree : String
  parentSourceTree : String
  contents : String
deriving DecidableEq

def PackageFile.isJavaScript (f : PackageFile) : Bool :=
  extname f.sourcePath == ".js"

def PackageFile.isCoffeeScript (f : PackageFile) : Bool :=
  extname f.sourcePath == ".coffee"

/-- Embedding of `BT.PackageFile.relativePath`, i.e. `sourcePath.slice(parentSourceTree.length + 1)`. -/
def PackageFile.relativePath (f : PackageFile) : String :=
  sliceFrom f.sourcePath (f.parentSourceTree.data.length + 1)

/-- Embedding of `BT.PackageFile.requirePath`, i.e. `sourceTree.slice(parentSourceTree.length + 1)`. -/
def PackageFile.requirePath (f : PackageFile) : String :=
  sliceFrom f.sourceTree (f.parentSourceTree.data.length + 1)

/-- Embedding of `BT.PackageFile.scRequireDependencies`: the plain extraction re-rooted
by prefixing each identifier with the package's `requirePath`. -/
def PackageFile.scRequireDependencies (f : PackageFile) : List String :=
  (File.scRequireDependencies f.contents).map
    (fun required => pathJoin f.requirePath required)

/-- The facet of `BT.Package` that `orderFiles` uses: its trees and the
`files` collected by traversal (in construction order). -/
structure Package where
  sourceTree : String
  parentSourceTree : String
  files : List PackageFile
deriving DecidableEq

def Package.requirePath (pkg : Package) : String :=
  sliceFrom pkg.sourceTree (pkg.parentSourceTree.data.length + 1)

/-- JavaScript object indexing `map[k]` where `map[k] = v` assignments may
overwrite: the last binding wins. -/
def lookupLast {α : Type} (m : List (String × α)) (k : String) : Option α :=
  (m.reverse.find? (fun e => e.1 == k)).map (fun e => e.2)

/-- The graph vertex a file is keyed by inside `orderFiles`: its relative
path with the `.js`/`.coffee` extension dropped (`undefined` when the file
is neither kind, which package construction never admits). -/
def Package.fileVertex (file : PackageFile) : String :=
  if file.isJavaScript then sliceDropRight file.relativePath 3
  else if file.isCoffeeScript then sliceDropRight file.relativePath 7
  else "undefined"

/-- One file's contribution to the graph `orderFiles` builds: its vertex
is registered, one edge per declared dependency points from the dependency
to the file, and an entry edge from `corePath` points to the file vertex
(including `corePath` itself for core.js). -/
def Package.filesGraphStep (pkg : Package) (g : Graph)
    (file : PackageFile) : Graph :=
  let dependencyPath := Package.fileVertex file
  let g := g.addVertex dependencyPath
  let g := file.scRequireDependencies.foldl
    (fun g name => g.addEdge name dependencyPath) g
  g.addEdge (pathJoin pkg.requirePath "core") dependencyPath

/-- The dependency graph `orderFiles` builds over all package files. -/
def Package.filesGraph (pkg : Package) (files : List PackageFile) : Graph :=
  files.foldl (Package.filesGraphStep pkg) Graph.empty

/-- The `map` of vertex to file that `orderFiles` fills in the same pass
(one binding appended per file, in iteration order). -/
def Package.filesMap (files : List PackageFile) :
    List (String × PackageFile) :=
  files.map (fun file => (Package.fileVertex file, file))

/-- Embedding of `BT.Package.orderFiles`: build a graph keyed by extension-stripped
relative paths, with an edge per declared dependency and an entry edge from
`corePath` to every file vertex; sort; map sorted vertices back to files,
silently skipping an absent `corePath` vertex and logging any other vertex
with no file.  Returns the ordered files together with the emitted log
lines, or `none` when the sort fails on a cycle. -/
def Package.orderStep (m : List (String × PackageFile))
    (corePath tree : String) (acc : List PackageFile × List String)
    (vertex : String) : List PackageFile × List String :=
  match lookupLast m vertex with
  | some dep => (acc.1 ++ [dep], acc.2)
  | none =>
    if vertex = corePath then acc
    else (acc.1, acc.2 ++ ["could not find " ++ tree ++
      " package dependency: " ++ vertex])

def Package.orderFiles (pkg : Package) (files : List PackageFile) :
    Option (List PackageFile × List String) :=
  match (pkg.filesGraph files).topologicalSort with
  | none => none
  | some sortedVertices =>
    some (sortedVertices.foldl
      (Package.orderStep (Package.filesMap files)
        (pathJoin pkg.requirePath "core") pkg.sourceTree)
      ([], []))

/-- Embedding of `BT.Package.orderedJavaScriptFiles`. -/
def Package.orderedJavaScriptFiles (pkg : Package) :
    Option (List PackageFile × List String) :=
  pkg.orderFiles pkg.files

end BT

/-! ## Claim C1: ordering of core.js / a.js / b.js -/

/-- a.js: declares a dependency on `core`. -/
def fileA : BT.PackageFile :=
  { sourcePath := "fw/packages/pkg/a.js", sourceTree := "fw/packages/pkg",
    parentSourceTree := "fw/packages",
    contents := "sc_require(\x27core\x27);\nvar a = 1;" }

/-- b.js: declares a dependency on `a`. -/
def fileB : BT.PackageFile :=
  { sourcePath := "fw/packages/pkg/b.js", sourceTree := "fw/packages/pkg",
    parentSourceTree := "fw/packages",
    contents := "sc_require(\"a\");\nvar b = 2;" }

/-- core.js: no declared dependencies. -/
def fileCore : BT.PackageFile :=
  { sourcePath := "fw/packages/pkg/core.js", sourceTree := "fw/packages/pkg",
    parentSourceTree := "fw/packages", contents := "var core = 0;" }

/-- The package whose files are exactly core.js, a.js and b.js (listed in
directory-scan order). -/
def pkgC1 : BT.Package :=
  { sourceTree := "fw/packages/pkg", parentSourceTree := "fw/packages",
    files := [fileA, fileB, fileCore] }

/-- Claim C1: for the package whose files are exactly core.js (no declared
dependencies), a.js (depends on `core`) and b.js (depends on `a`),
`orderFiles` returns the three files in the order [core.js, a.js, b.js]
(and no diagnostics), even though it adds an entry edge from the core
vertex to every file vertex including core itself. -/
theorem c1_orderFiles_core_a_b :
    pkgC1.orderedJavaScriptFiles = some ([fileCore, fileA, fileB], []) := by
  decide

/-! ## Claim C2: witness -/

/-- The cyclic graph with edges A→B and B→A. -/
def graphC2 : Graph := (Graph.empty.addEdge "A" "B").addEdge "B" "A"

theorem c2_witness : graphC2.topologicalSort = none :=
  c2_topologicalSort_fails_on_cycle graphC2 (by decide)
    ⟨"A", ["B"], by decide, by decide,
      List.Chain.cons (by decide) List.Chain.nil, by decide⟩

namespace BT

/-! ## `BT.Packager` (`orderedPackages`, `manifest`, `findPackage`)

A packager aggregates the `BT.Package` nodes created while scanning its
directory, each stored under a freshly generated uuid key
(`node.set(uuid, package)`); the traversal hack later installs that key as
the package's `nodeName`.  Package dependency resolution mutates only each
package's `type` property (promotion to core); neither `findPackage` nor
the dependency graph reads `type`, so the model keeps the immutable
metadata in `PackageMeta` and threads the mutable type assignment
explicitly as a function from uuid to type. -/

/-- Construction-time metadata of one package: the uuid it was stored
under, its directory basename, its declared type (after `init` defaulted a
missing type to `"core"`), its `dependencies` property (`none` mirrors
`undefined`: no `dependencies` key in package.json), and the name of the
owning Framework/App ancestor used by the manifest (`none` when the
`parentNode` walk finds no such root). -/
structure PackageMeta where
  uuid : String
  basename : String
  type : String
  dependencies : Option (List String)
  rootNode : Option String
deriving DecidableEq

/-- Embedding of `BT.Packager.findPackage`: direct lookup by uuid key first, then a
linear scan matching on basename; `none` when neither matches. -/
def Packager.findPackage (ps : List PackageMeta) (key : String) :
    Option PackageMeta :=
  match ps.find? (fun p => p.uuid == key) with
  | some p => some p
  | none => ps.find? (fun p => p.basename == key)

/-- The type assignment at construction time: each package's declared type. -/
def Packager.initTypes (ps : List PackageMeta) : String → String :=
  fun u => ((ps.find? (fun p => p.uuid == u)).map (fun p => p.type)).getD
    "undefined"

/-- Embedding of `uuid.set('type', 'core')`. -/
def promoteCore (ty : String → String) (u : String) : String → String :=
  fun v => if v = u then "core" else ty v

/-- One package's dependency resolution pass inside `orderedPackages`: for
each declared dependency name that `findPackage` resolves, if the declaring
package is currently core and the dependency is not, the dependency is
promoted to core. -/
def Packager.resolveDeps (ps : List PackageMeta) (qUuid : String)
    (deps : List String) (ty : String → String) : String → String :=
  deps.foldl
    (fun ty depName =>
      match Packager.findPackage ps depName with
      | some dep =>
        if ty qUuid = "core" ∧ ty dep.uuid ≠ "core" then
          promoteCore ty dep.uuid
        else ty
      | none => ty)
    ty

/-- The type assignment after `orderedPackages` has processed the packages
of `pre` (a prefix of the packager's package list), in order. -/
def Packager.resolveTypesUpTo (ps pre : List PackageMeta) :
    String → String :=
  pre.foldl
    (fun ty p => Packager.resolveDeps ps p.uuid (p.dependencies.getD []) ty)
    (Packager.initTypes ps)

/-- The final type assignment once `orderedPackages` has processed every
package. -/
def Packager.resolveTypes (ps : List PackageMeta) : String → String :=
  Packager.resolveTypesUpTo ps ps

/-- The dependency graph `orderedPackages` builds: one vertex per package
nodeName (= uuid), an edge from each resolved dependency's uuid to the
declaring package's uuid; an unresolved dependency leaves `uuid` undefined
and the edge is drawn from the vertex keyed `"undefined"` (the
stringification of the undefined key). -/
def Packager.packagesGraph (ps : List PackageMeta) : Graph :=
  ps.foldl
    (fun g p =>
      let name := p.uuid
      let g := g.addVertex name
      (p.dependencies.getD []).foldl
        (fun g depName =>
          match Packager.findPackage ps depName with
          | some dep => g.addEdge dep.uuid name
          | none => g.addEdge "undefined" name)
        g)
    Graph.empty

/-- Embedding of `BT.Packager.orderedPackages`: topologically sort the package graph and
map sorted vertices back to packages, skipping unresolved vertices.  (In
the source the type promotions of `resolveDeps` happen in the same pass
that builds the graph; they only touch `type`, which the graph and the
vertex map never read, so the model separates the two folds.) -/
def Packager.orderedPackages (ps : List PackageMeta) :
    Option (List PackageMeta) :=
  ((Packager.packagesGraph ps).topologicalSort).map
    (fun sorted => sorted.filterMap (fun v => ps.find? (fun p => p.uuid == v)))

def renderRootNode (r : Option String) : String :=
  match r with
  | some name => "\x27" ++ name ++ "\x27"
  | none => "null"

/-- The `dependencies` fragment of one manifest entry: nothing but a
newline when the package has no `dependencies` array; otherwise the list of
declared names that resolve, with the source's trailing-comma logic (the
console diagnostic for an unresolved name is not part of the manifest
text). -/
def Packager.dependenciesFor (ps : List PackageMeta) (p : PackageMeta) :
    String :=
  match p.dependencies with
  | none => "\n"
  | some deps =>
    (deps.enum.foldl
      (fun str e =>
        match Packager.findPackage ps e.2 with
        | none => str
        | some _ =>
          str ++ "      \"" ++ e.2 ++ "\"" ++
            (if e.1 < deps.length - 1 then ",\n" else ""))
      ",\n    \"dependencies\": [\n") ++ "\n    ]\n"

/-- Embedding of `BT.Packager.manifest`: one textual record per ordered package, keyed
by the package's nodeName (its uuid), with basename, (post-resolution)
type, root node name, loaded/ready flags and dependency names. -/
def Packager.manifest (ps : List PackageMeta) : Option String :=
  (Packager.orderedPackages ps).map
    (fun packages =>
      let ty := Packager.resolveTypes ps
      packages.enum.foldl
        (fun manifest e =>
          let p := e.2
          let t := ty p.uuid
          manifest ++ "  \"" ++ p.uuid ++ "\": \x7b\n" ++
            "    \"basename\": \x27" ++ p.basename ++ "\x27,\n" ++
            "    \"type\": \x27" ++ t ++ "\x27,\n" ++
            "    \"rootNode\": " ++ renderRootNode p.rootNode ++ ",\n" ++
            "    \"isLoaded\": " ++ (if t = "core" then "true" else "false")
            ++ ",\n" ++
            "    \"isReady\": " ++ (if t = "core" then "true" else "false")
            ++ Packager.dependenciesFor ps p ++ "  \x7d" ++
            (if e.1 < packages.length - 1 then ",\n" else ""))
        "")

end BT

/-! ## Claim C3: two-run determinism of ordering and manifest

A process run is parameterized by the uuid values `BT.Packager.uuid` draws
(`sha1(Math.random().toString())` in the source): the filesystem tree is
fixed, the draws are not.  The scenario below is a packager directory
holding one package `foo`, declared core, with no `dependencies` key, owned
by a root named `packages`. -/

/-- The package `foo` as constructed in a run whose uuid draw is `u`. -/
def c3Package (u : String) : BT.PackageMeta :=
  { uuid := u, basename := "foo", type := "core", dependencies := none,
    rootNode := some "packages" }

/-- SHA-1 digest of the draw `"0.4036472118435467"`: the uuid generated in
a first process run. -/
def c3Draw1 : String := "70570aef728856b47dcaff7eced2958f3368ade1"

/-- SHA-1 digest of the draw `"0.9146156666157305"`: the uuid generated in
a second process run on the unchanged tree. -/
def c3Draw2 : String := "3a498e20bbf5126e13b4d513ee46e4897772eb0e"

/-- In any run, the packager orders its single package first (the ordered
package list does not depend on the uuid draw). -/
theorem c3_orderedPackages_eval (u : String) :
    BT.Packager.orderedPackages [c3Package u] = some [c3Package u] := by
  simp [BT.Packager.orderedPackages, BT.Packager.packagesGraph,
    Graph.addVertex, Graph.empty, Graph.topologicalSort, Graph.topoAux,
    Graph.indeg, c3Package, List.find?]

set_option maxHeartbeats 1000000 in
/-- The manifest text embeds the uuid draw injectively: equal manifests
force equal draws. -/
theorem c3_manifest_inj (u1 u2 : String)
    (h : BT.Packager.manifest [c3Package u1] =
      BT.Packager.manifest [c3Package u2]) : u1 = u2 := by
  unfold BT.Packager.manifest at h
  rw [c3_orderedPackages_eval u1, c3_orderedPackages_eval u2] at h
  simp only [BT.Packager.resolveTypes, BT.Packager.resolveTypesUpTo,
    BT.Packager.resolveDeps, BT.Packager.initTypes,
    BT.Packager.dependenciesFor, BT.renderRootNode, c3Package, List.find?,
    List.enum, List.enumFrom, List.foldl_cons, List.foldl_nil,
    Option.map_some', Option.getD_some, Option.getD, beq_self_eq_true,
    Option.some.injEq, List.length_singleton] at h
  simp only [if_true, show ¬(0 < 1 - 1) by omega, if_false] at h
  have hd := congrArg String.data h
  simp only [String.data_append, List.append_assoc] at hd
  have h1 := List.append_cancel_left hd
  have h2 := List.append_cancel_left h1
  have h3 := List.append_cancel_right h2
  exact String.ext h3

/-- Claim C3, counterexample: on the unchanged tree, a first run drawing
`c3Draw1` and a second run drawing `c3Draw2` produce different manifest
text (the manifest is keyed by the drawn uuid), so two separate process
runs are not byte-identical. -/
theorem c3_counterexample :
    BT.Packager.manifest [c3Package c3Draw1] ≠
      BT.Packager.manifest [c3Package c3Draw2] := by
  decide

/-- Claim C3, amended: on an unchanged tree the ordered package list is
byte-identical across runs (it does not depend on the uuid draws), but the
manifest text is byte-identical only when the uuid draws coincide: runs
with different draws produce different manifest text. -/
theorem c3_det_ordering_manifest_depends_on_draw (u1 u2 : String) :
    ((BT.Packager.orderedPackages [c3Package u1]).map
        (fun l => l.map (fun p => p.basename)) =
      (BT.Packager.orderedPackages [c3Package u2]).map
        (fun l => l.map (fun p => p.basename))) ∧
    (u1 ≠ u2 →
      BT.Packager.manifest [c3Package u1] ≠
        BT.Packager.manifest [c3Package u2]) := by
  constructor
  · rw [c3_orderedPackages_eval u1, c3_orderedPackages_eval u2]
    simp [c3Package]
  · intro hne h
    exact hne (c3_manifest_inj u1 u2 h)

theorem c3_witness :
    (BT.Packager.orderedPackages [c3Package c3Draw1]).map
        (fun l => l.map (fun p => p.basename)) =
      (BT.Packager.orderedPackages [c3Package c3Draw2]).map
        (fun l => l.map (fun p => p.basename)) ∧
    BT.Packager.manifest [c3Package c3Draw1] ≠
      BT.Packager.manifest [c3Package c3Draw2] :=
  ⟨(c3_det_ordering_manifest_depends_on_draw c3Draw1 c3Draw2).1,
   (c3_det_ordering_manifest_depends_on_draw c3Draw1 c3Draw2).2 (by decide)⟩

/-! ## Claims C4 and C5: promotion of dependencies to core -/

namespace BT

/-- Direct dependency between resolved packages: `q` declares a name that
`findPackage` resolves to `p`. -/
def Packager.dependsOn (ps : List PackageMeta) (q p : PackageMeta) : Prop :=
  ∃ name ∈ q.dependencies.getD [], Packager.findPackage ps name = some p

/-- Transitive dependency (chains of any length ≥ 1). -/
def Packager.transDependsOn (ps : List PackageMeta) :
    PackageMeta → PackageMeta → Prop :=
  Relation.TransGen (Packager.dependsOn ps)

/-- Promotion never revokes core: one package's resolution pass preserves
any uuid already typed core. -/
theorem Packager.resolveDeps_mono (ps : List PackageMeta) (qU : String) :
    ∀ (deps : List String) (ty : String → String) (v : String),
      ty v = "core" → Packager.resolveDeps ps qU deps ty v = "core" := by
  intro deps
  induction deps with
  | nil => intro ty v h; exact h
  | cons d rest ih =>
    intro ty v h
    simp only [Packager.resolveDeps, List.foldl_cons] at *
    apply ih
    cases Packager.findPackage ps d with
    | none => exact h
    | some dep =>
      by_cases hcond : ty qU = "core" ∧ ty dep.uuid ≠ "core"
      · simp only [if_pos hcond, promoteCore]
        split <;> [rfl; exact h]
      · simp only [if_neg hcond]; exact h

/-- Core-ness of a uuid is preserved across the resolution passes of any
list of packages. -/
theorem Packager.resolveFold_mono (ps : List PackageMeta) :
    ∀ (l : List PackageMeta) (ty : String → String) (v : String),
      ty v = "core" →
      (l.foldl
        (fun ty p => Packager.resolveDeps ps p.uuid (p.dependencies.getD []) ty)
        ty) v = "core" := by
  intro l
  induction l with
  | nil => intro ty v h; exact h
  | cons r rest ih =>
    intro ty v h
    simp only [List.foldl_cons]
    exact ih _ v (Packager.resolveDeps_mono ps r.uuid _ ty v h)

/-- During one package's resolution pass, if the declaring package is
currently core, every resolvable declared dependency ends the pass core. -/
theorem Packager.resolveDeps_promotes (ps : List PackageMeta) (qU : String) :
    ∀ (deps : List String) (ty : String → String) (name : String)
      (p : PackageMeta), name ∈ deps → ty qU = "core" →
      Packager.findPackage ps name = some p →
      Packager.resolveDeps ps qU deps ty p.uuid = "core" := by
  intro deps
  induction deps with
  | nil => intro ty name p hname; simp at hname
  | cons d rest ih =>
    intro ty name p hname hq hfind
    simp only [Packager.resolveDeps, List.foldl_cons] at *
    rcases List.mem_cons.mp hname with rfl | hname'
    · simp only [hfind]
      by_cases hp : ty p.uuid = "core"
      · have hcond : ¬(ty qU = "core" ∧ ty p.uuid ≠ "core") := by
          intro hc; exact hc.2 hp
        rw [if_neg hcond]
        exact Packager.resolveDeps_mono ps qU rest ty p.uuid hp
      · rw [if_pos ⟨hq, hp⟩]
        exact Packager.resolveDeps_mono ps qU rest _ p.uuid (by
          simp [promoteCore])
    · cases hd : Packager.findPackage ps d with
      | none => simp only [hd]; exact ih ty name p hname' hq hfind
      | some dep =>
        simp only [hd]
        by_cases hcond : ty qU = "core" ∧ ty dep.uuid ≠ "core"
        · rw [if_pos hcond]
          refine ih _ name p hname' ?_ hfind
          simp only [promoteCore]
          split <;> [rfl; exact hq]
        · rw [if_neg hcond]
          exact ih ty name p hname' hq hfind

/-- With pairwise distinct uuids, looking a member package up by its own
uuid finds it. -/
theorem Packager.find?_uuid_of_nodup :
    ∀ (ps : List PackageMeta) (q : PackageMeta), q ∈ ps →
      (ps.map (fun r => r.uuid)).Nodup →
      ps.find? (fun p => p.uuid == q.uuid) = some q := by
  intro ps
  induction ps with
  | nil => intro q hq; simp at hq
  | cons a rest ih =>
    intro q hq hnd
    rcases List.mem_cons.mp hq with rfl | hq'
    · simp [List.find?]
    · have hne : ¬(a.uuid == q.uuid) = true := by
        simp only [beq_iff_eq]
        intro heq
        have : q.uuid ∈ rest.map (fun r => r.uuid) :=
          List.mem_map.mpr ⟨q, hq', rfl⟩
        rw [← heq] at this
        exact (List.nodup_cons.mp (by simpa using hnd)).1 this
      simp only [List.find?, Bool.of_not_eq_true hne]
      exact ih q hq' (List.nodup_cons.mp (by simpa using hnd)).2

/-- A member package's initial type is its declared type. -/
theorem Packager.initTypes_of_mem (ps : List PackageMeta) (q : PackageMeta)
    (hq : q ∈ ps) (hnd : (ps.map (fun r => r.uuid)).Nodup) :
    Packager.initTypes ps q.uuid = q.type := by
  simp [Packager.initTypes, Packager.find?_uuid_of_nodup ps q hq hnd]

/-- Workhorse for C4/C5: once `orderedPackages` has processed the packages
up to and including a declared-core `q`, every resolvable direct dependency
of `q` is typed core. -/
theorem Packager.resolveTypesUpTo_promotes (l1 l2 : List PackageMeta)
    (q p : PackageMeta) (name : String)
    (hnd : ((l1 ++ q :: l2).map (fun r => r.uuid)).Nodup)
    (hq : q.type = "core") (hname : name ∈ q.dependencies.getD [])
    (hfind : Packager.findPackage (l1 ++ q :: l2) name = some p) :
    Packager.resolveTypesUpTo (l1 ++ q :: l2) (l1 ++ [q]) p.uuid = "core" := by
  have hmem : q ∈ l1 ++ q :: l2 := List.mem_append_right l1 (List.mem_cons_self q l2)
  have hinit : Packager.initTypes (l1 ++ q :: l2) q.uuid = "core" := by
    rw [Packager.initTypes_of_mem _ q hmem hnd, hq]
  unfold Packager.resolveTypesUpTo
  rw [List.foldl_append]
  simp only [List.foldl_cons, List.foldl_nil]
  apply Packager.resolveDeps_promotes _ q.uuid _ _ name p hname _ hfind
  exact Packager.resolveFold_mono _ l1 _ q.uuid hinit

end BT

/-- Claim C5: a non-core package `p` declared as a direct dependency of a
declared-core package `q` in the same packager scope (the declared name
resolves to `p` via `findPackage`) is typed core once `orderedPackages`
has processed the packages up to and including `q`. -/
theorem c5_direct_dep_promoted_after_q (l1 l2 : List BT.PackageMeta)
    (q p : BT.PackageMeta) (name : String)
    (hnd : ((l1 ++ q :: l2).map (fun r => r.uuid)).Nodup)
    (hq : q.type = "core") (_hp : p.type ≠ "core")
    (hname : name ∈ q.dependencies.getD [])
    (hfind : BT.Packager.findPackage (l1 ++ q :: l2) name = some p) :
    BT.Packager.resolveTypesUpTo (l1 ++ q :: l2) (l1 ++ [q]) p.uuid =
      "core" :=
  BT.Packager.resolveTypesUpTo_promotes l1 l2 q p name hnd hq hname hfind

/-- The core package `A`, declaring a dependency on `B`. -/
def pkgA4 : BT.PackageMeta :=
  { uuid := "u-a", basename := "A", type := "core",
    dependencies := some ["B"], rootNode := none }

/-- The lazy package `B`, declaring a dependency on `C`. -/
def pkgB4 : BT.PackageMeta :=
  { uuid := "u-b", basename := "B", type := "lazy",
    dependencies := some ["C"], rootNode := none }

/-- The lazy package `C`. -/
def pkgC4 : BT.PackageMeta :=
  { uuid := "u-c", basename := "C", type := "lazy",
    dependencies := none, rootNode := none }

/-- A packager scope in which `B` is iterated before `A`. -/
def c4Packages : List BT.PackageMeta := [pkgB4, pkgC4, pkgA4]

theorem c5_witness :
    BT.Packager.resolveTypesUpTo
      (([] : List BT.PackageMeta) ++ pkgA4 :: [pkgB4])
      (([] : List BT.PackageMeta) ++ [pkgA4]) pkgB4.uuid = "core" :=
  c5_direct_dep_promoted_after_q [] [pkgB4] pkgA4 pkgB4 "B" (by decide)
    (by decide) (by decide) (by decide) (by decide)

/-- Claim C4, counterexample: in the scope `[B, C, A]` (with `A` core
depending on `B`, `B` lazy depending on `C`), `C` is a transitive
dependency of the core package `A`, yet after the whole resolution pass of
`orderedPackages` the type of `C` is still `"lazy"`: `B` was iterated while
still lazy, so its own dependency `C` was never promoted. -/
theorem c4_counterexample :
    BT.Packager.transDependsOn c4Packages pkgA4 pkgC4 ∧
    BT.Packager.resolveTypes c4Packages pkgA4.uuid = "core" ∧
    BT.Packager.resolveTypes c4Packages pkgC4.uuid ≠ "core" :=
  ⟨Relation.TransGen.head
      (show BT.Packager.dependsOn c4Packages pkgA4 pkgB4 from
        ⟨"B", by decide, by decide⟩)
      (Relation.TransGen.single
        (show BT.Packager.dependsOn c4Packages pkgB4 pkgC4 from
          ⟨"C", by decide, by decide⟩)),
    by decide, by decide⟩

/-- Claim C4, amended: after `orderedPackages` is computed, every package
that is a resolvable *direct* declared dependency of a *declared-core*
package has type core; promotion along longer chains is
iteration-order-sensitive and not guaranteed. -/
theorem c4_direct_deps_of_core_end_core (ps : List BT.PackageMeta)
    (q p : BT.PackageMeta) (name : String) (hmem : q ∈ ps)
    (hnd : (ps.map (fun r => r.uuid)).Nodup) (hq : q.type = "core")
    (hname : name ∈ q.dependencies.getD [])
    (hfind : BT.Packager.findPackage ps name = some p) :
    BT.Packager.resolveTypes ps p.uuid = "core" := by
  obtain ⟨l1, l2, rfl⟩ := List.append_of_mem hmem
  have hstep := BT.Packager.resolveTypesUpTo_promotes l1 l2 q p name hnd hq
    hname hfind
  unfold BT.Packager.resolveTypes BT.Packager.resolveTypesUpTo at *
  rw [List.foldl_append, List.foldl_cons, List.foldl_nil] at hstep
  rw [List.foldl_append, List.foldl_cons]
  exact BT.Packager.resolveFold_mono _ l2 _ p.uuid hstep

theorem c4_witness :
    BT.Packager.resolveTypes c4Packages pkgB4.uuid = "core" :=
  c4_direct_deps_of_core_end_core c4Packages pkgA4 pkgB4 "B" (by decide)
    (by decide) (by decide) (by decide) (by decide)

/-! ## Claim C6: unresolved package-file dependencies -/

theorem Graph.mem_vertices_addEdge (g : Graph) (a b w : String) :
    w ∈ (g.addEdge a b).vertices ↔ w ∈ g.vertices ∨ w = a ∨ w = b := by
  show w ∈ ((g.addVertex a).addVertex b).vertices ↔ _
  rw [Graph.mem_vertices_addVertex, Graph.mem_vertices_addVertex]
  tauto

namespace BT

/-- Vertices accumulated by the per-file dependency-edge fold: everything
already present plus every declared dependency name. -/
theorem depsFold_vertices (dp : String) :
    ∀ (deps : List String) (g : Graph) (v : String),
      v ∈ g.vertices ∨ v ∈ deps →
      v ∈ (deps.foldl (fun g name => g.addEdge name dp) g).vertices := by
  intro deps
  induction deps with
  | nil =>
    intro g v h
    rcases h with h | h
    · exact h
    · simp at h
  | cons d rest ih =>
    intro g v h
    simp only [List.foldl_cons]
    apply ih
    rcases h with h | h
    · exact Or.inl ((Graph.mem_vertices_addEdge g d dp v).mpr (Or.inl h))
    · rcases List.mem_cons.mp h with rfl | h'
      · exact Or.inl ((Graph.mem_vertices_addEdge g v dp v).mpr
          (Or.inr (Or.inl rfl)))
      · exact Or.inr h'

theorem Package.filesGraphStep_vertices (pkg : Package) (g : Graph)
    (file : PackageFile) (v : String)
    (h : v ∈ g.vertices ∨ v = Package.fileVertex file ∨
      v ∈ file.scRequireDependencies) :
    v ∈ (Package.filesGraphStep pkg g file).vertices := by
  unfold Package.filesGraphStep
  rw [Graph.mem_vertices_addEdge]
  rcases h with h | h | h
  · exact Or.inl (depsFold_vertices _ _ _ v
      (Or.inl ((Graph.mem_vertices_addVertex g _ v).mpr (Or.inl h))))
  · exact Or.inl (depsFold_vertices _ _ _ v
      (Or.inl ((Graph.mem_vertices_addVertex g _ v).mpr (Or.inr h))))
  · exact Or.inl (depsFold_vertices _ _ _ v (Or.inr h))

/-- Every file vertex and every declared dependency name is a vertex of
the built graph. -/
theorem Package.filesGraph_vertices (pkg : Package) :
    ∀ (files : List PackageFile) (g : Graph) (v : String),
      v ∈ g.vertices ∨ (∃ f ∈ files, v = Package.fileVertex f ∨
        v ∈ f.scRequireDependencies) →
      v ∈ (files.foldl (Package.filesGraphStep pkg) g).vertices := by
  intro files
  induction files with
  | nil =>
    intro g v h
    rcases h with h | ⟨f, hf, _⟩
    · exact h
    · simp at hf
  | cons a rest ih =>
    intro g v h
    simp only [List.foldl_cons]
    apply ih
    rcases h with h | ⟨f, hf, hv⟩
    · exact Or.inl (Package.filesGraphStep_vertices pkg g a v (Or.inl h))
    · rcases List.mem_cons.mp hf with rfl | hf'
      · exact Or.inl (Package.filesGraphStep_vertices pkg g f v (Or.inr hv))
      · exact Or.inr ⟨f, hf', hv⟩

/-- Running `find?` on an association list with pairwise distinct keys returns the
member binding. -/
theorem find?_key_of_nodup {α : Type} :
    ∀ (m : List (String × α)) (k : String) (v : α),
      (m.map Prod.fst).Nodup → (k, v) ∈ m →
      m.find? (fun e => e.1 == k) = some (k, v) := by
  intro m
  induction m with
  | nil => intro k v _ hmem; simp at hmem
  | cons a rest ih =>
    intro k v hnd hmem
    rcases List.mem_cons.mp hmem with rfl | hmem'
    · simp [List.find?]
    · have hne : ¬(a.1 == k) = true := by
        simp only [beq_iff_eq]
        intro heq
        have : k ∈ rest.map Prod.fst := List.mem_map.mpr ⟨(k, v), hmem', rfl⟩
        rw [← heq] at this
        exact (List.nodup_cons.mp (by simpa using hnd)).1 this
      simp only [List.find?, Bool.of_not_eq_true hne]
      exact ih k v (List.nodup_cons.mp (by simpa using hnd)).2 hmem'

theorem lookupLast_of_nodup {α : Type} (m : List (String × α)) (k : String)
    (v : α) (hnd : (m.map Prod.fst).Nodup) (hmem : (k, v) ∈ m) :
    lookupLast m k = some v := by
  unfold lookupLast
  rw [find?_key_of_nodup m.reverse k v
    (by rw [List.map_reverse]; exact List.nodup_reverse.mpr hnd)
    (List.mem_reverse.mpr hmem)]
  rfl

theorem lookupLast_eq_none {α : Type} (m : List (String × α)) (k : String)
    (h : ∀ e ∈ m, e.1 ≠ k) : lookupLast m k = none := by
  unfold lookupLast
  rw [List.find?_eq_none.mpr (fun e he => by
    simp only [beq_iff_eq]
    exact h e (List.mem_reverse.mp he))]
  rfl

theorem Package.orderStep_eq_some (m : List (String × PackageFile))
    (corePath tree : String) (acc : List PackageFile × List String)
    (v : String) (dep : PackageFile) (h : lookupLast m v = some dep) :
    Package.orderStep m corePath tree acc v = (acc.1 ++ [dep], acc.2) := by
  unfold Package.orderStep
  rw [h]

theorem Package.orderStep_eq_none (m : List (String × PackageFile))
    (corePath tree : String) (acc : List PackageFile × List String)
    (v : String) (h : lookupLast m v = none) :
    Package.orderStep m corePath tree acc v =
      if v = corePath then acc
      else (acc.1, acc.2 ++ ["could not find " ++ tree ++
        " package dependency: " ++ v]) := by
  unfold Package.orderStep
  rw [h]

/-- Membership in the ordered-file component of the output fold. -/
theorem Package.orderFold_ret (m : List (String × PackageFile))
    (corePath tree : String) :
    ∀ (S : List String) (acc : List PackageFile × List String)
      (f : PackageFile),
      (f ∈ (S.foldl (Package.orderStep m corePath tree) acc).1 ↔
        f ∈ acc.1 ∨ ∃ v ∈ S, lookupLast m v = some f) := by
  intro S
  induction S with
  | nil => intro acc f; simp
  | cons v S' ih =>
    intro acc f
    simp only [List.foldl_cons]
    rw [ih]
    have hstep : f ∈ (Package.orderStep m corePath tree acc v).1 ↔
        f ∈ acc.1 ∨ lookupLast m v = some f := by
      cases h : lookupLast m v with
      | some dep =>
        rw [Package.orderStep_eq_some m corePath tree acc v dep h]
        simp [eq_comm]
      | none =>
        rw [Package.orderStep_eq_none m corePath tree acc v h]
        split <;> simp
    constructor
    · rintro (hf | ⟨v2, hv2, hl⟩)
      · rcases hstep.mp hf with hf2 | hl
        · exact Or.inl hf2
        · exact Or.inr ⟨v, List.mem_cons_self v S', hl⟩
      · exact Or.inr ⟨v2, List.mem_cons_of_mem v hv2, hl⟩
    · rintro (hf | ⟨v2, hv2, hl⟩)
      · exact Or.inl (hstep.mpr (Or.inl hf))
      · rcases List.mem_cons.mp hv2 with rfl | hv3
        · exact Or.inl (hstep.mpr (Or.inr hl))
        · exact Or.inr ⟨v2, hv3, hl⟩

/-- Membership in the log component of the output fold. -/
theorem Package.orderFold_logs (m : List (String × PackageFile))
    (corePath tree : String) :
    ∀ (S : List String) (acc : List PackageFile × List String)
      (msg : String),
      (msg ∈ (S.foldl (Package.orderStep m corePath tree) acc).2 ↔
        msg ∈ acc.2 ∨ ∃ v ∈ S, lookupLast m v = none ∧ v ≠ corePath ∧
          msg = "could not find " ++ tree ++ " package dependency: " ++ v) := by
  intro S
  induction S with
  | nil => intro acc msg; simp
  | cons v S' ih =>
    intro acc msg
    simp only [List.foldl_cons]
    rw [ih]
    have hstep : msg ∈ (Package.orderStep m corePath tree acc v).2 ↔
        msg ∈ acc.2 ∨ (lookupLast m v = none ∧ v ≠ corePath ∧
          msg = "could not find " ++ tree ++ " package dependency: " ++ v) := by
      cases h : lookupLast m v with
      | some dep =>
        rw [Package.orderStep_eq_some m corePath tree acc v dep h]
        simp [h]
      | none =>
        rw [Package.orderStep_eq_none m corePath tree acc v h]
        split
        · next hcore => simp [hcore]
        · next hcore => simp [hcore, eq_comm]
    constructor
    · rintro (hm | ⟨v2, hv2, hl⟩)
      · rcases hstep.mp hm with hm2 | hl
        · exact Or.inl hm2
        · exact Or.inr ⟨v, List.mem_cons_self v S', hl⟩
      · exact Or.inr ⟨v2, List.mem_cons_of_mem v hv2, hl⟩
    · rintro (hm | ⟨v2, hv2, hl⟩)
      · exact Or.inl (hstep.mpr (Or.inl hm))
      · rcases List.mem_cons.mp hv2 with rfl | hv3
        · exact Or.inl (hstep.mpr (Or.inr hl))
        · exact Or.inr ⟨v2, hv3, hl⟩

end BT

/-- Keys of the vertex-to-file map are the file vertices. -/
theorem BT.Package.filesMap_keys (files : List BT.PackageFile) :
    (BT.Package.filesMap files).map Prod.fst =
      files.map BT.Package.fileVertex := by
  simp [BT.Package.filesMap, List.map_map]

/-- Claim C6, amended: provided the built graph is acyclic (so that
`orderFiles` returns a list at all) and no two package files share the same
extension-stripped relative path (otherwise the earlier file is shadowed in
the vertex map and dropped), a file declaring a dependency path that
resolves to no known file still appears in the returned ordered list, and a
diagnostic naming the unresolved vertex is logged — unless that vertex is
the optional entry (`corePath`) vertex, which is skipped silently. -/
theorem c6_unresolved_logged_file_kept (pkg : BT.Package)
    (f : BT.PackageFile) (name : String) (ret : List BT.PackageFile)
    (logs : List String)
    (hnd : (pkg.files.map BT.Package.fileVertex).Nodup)
    (hf : f ∈ pkg.files) (hdep : name ∈ f.scRequireDependencies)
    (hunres : ∀ f2 ∈ pkg.files, BT.Package.fileVertex f2 ≠ name)
    (hnotcore : name ≠ pathJoin pkg.requirePath "core")
    (hord : pkg.orderedJavaScriptFiles = some (ret, logs)) :
    f ∈ ret ∧
    ("could not find " ++ pkg.sourceTree ++ " package dependency: " ++ name)
      ∈ logs := by
  unfold BT.Package.orderedJavaScriptFiles BT.Package.orderFiles at hord
  cases hsort : (pkg.filesGraph pkg.files).topologicalSort with
  | none => exact absurd hord (by simp only [hsort]; simp)
  | some sorted =>
    simp only [hsort, Option.some.injEq] at hord
    have hkeys := BT.Package.filesMap_keys pkg.files
    have hndk : ((BT.Package.filesMap pkg.files).map Prod.fst).Nodup := by
      rw [hkeys]; exact hnd
    have hlook : BT.lookupLast (BT.Package.filesMap pkg.files)
        (BT.Package.fileVertex f) = some f :=
      BT.lookupLast_of_nodup _ _ _ hndk (List.mem_map.mpr ⟨f, hf, rfl⟩)
    have hfv : BT.Package.fileVertex f ∈
        (pkg.filesGraph pkg.files).vertices :=
      BT.Package.filesGraph_vertices pkg pkg.files Graph.empty _
        (Or.inr ⟨f, hf, Or.inl rfl⟩)
    have hnv : name ∈ (pkg.filesGraph pkg.files).vertices :=
      BT.Package.filesGraph_vertices pkg pkg.files Graph.empty _
        (Or.inr ⟨f, hf, Or.inr hdep⟩)
    have hperm := Graph.topoAux_perm (pkg.filesGraph pkg.files).edges
      (pkg.filesGraph pkg.files).vertices.length
      (pkg.filesGraph pkg.files).vertices sorted hsort
    have hlookn : BT.lookupLast (BT.Package.filesMap pkg.files) name =
        none := by
      apply BT.lookupLast_eq_none
      intro e he
      obtain ⟨f2, hf2, rfl⟩ := List.mem_map.mp he
      exact hunres f2 hf2
    constructor
    · have := (BT.Package.orderFold_ret (BT.Package.filesMap pkg.files)
        (pathJoin pkg.requirePath "core") pkg.sourceTree sorted ([], [])
        f).mpr
        (Or.inr ⟨BT.Package.fileVertex f, hperm.mem_iff.mpr hfv, hlook⟩)
      rw [hord] at this
      exact this
    · have := (BT.Package.orderFold_logs (BT.Package.filesMap pkg.files)
        (pathJoin pkg.requirePath "core") pkg.sourceTree sorted ([], [])
        ("could not find " ++ pkg.sourceTree ++ " package dependency: " ++
          name)).mpr
        (Or.inr ⟨name, hperm.mem_iff.mpr hnv, hlookn, hnotcore, rfl⟩)
      rw [hord] at this
      exact this

/-- a.js, declaring the unresolvable dependency `missing`. -/
def c6aJs : BT.PackageFile :=
  { sourcePath := "fw/packages/pkg/a.js", sourceTree := "fw/packages/pkg",
    parentSourceTree := "fw/packages",
    contents := "sc_require(\x27missing\x27);\nvar a1 = 1;" }

/-- a.coffee, whose extension-stripped path collides with a.js. -/
def c6aCoffee : BT.PackageFile :=
  { sourcePath := "fw/packages/pkg/a.coffee",
    sourceTree := "fw/packages/pkg", parentSourceTree := "fw/packages",
    contents := "var a2 = 2;" }

def c6pkg : BT.Package :=
  { sourceTree := "fw/packages/pkg", parentSourceTree := "fw/packages",
    files := [c6aJs, c6aCoffee] }

/-- Claim C6, counterexample: a.js declares the unresolved dependency
`pkg/missing` (which is duly logged and is not the entry vertex), yet a.js
does *not* appear in the returned ordered list: a.coffee shares the
extension-stripped path `pkg/a`, so the later map assignment shadows a.js. -/
theorem c6_counterexample :
    c6aJs ∈ c6pkg.files ∧
    "pkg/missing" ∈ c6aJs.scRequireDependencies ∧
    (∀ f ∈ c6pkg.files, BT.Package.fileVertex f ≠ "pkg/missing") ∧
    "pkg/missing" ≠ pathJoin c6pkg.requirePath "core" ∧
    c6pkg.orderedJavaScriptFiles =
      some ([c6aCoffee],
        ["could not find fw/packages/pkg package dependency: pkg/missing"])
    ∧ c6aJs ∉ [c6aCoffee] := by
  decide

/-- a.js of the witness package, declaring unresolvable `nope`. -/
def c6wA : BT.PackageFile :=
  { sourcePath := "fw/packages/wpkg/a.js",
    sourceTree := "fw/packages/wpkg", parentSourceTree := "fw/packages",
    contents := "sc_require(\x27nope\x27);\nvar a = 1;" }

/-- core.js of the witness package. -/
def c6wCore : BT.PackageFile :=
  { sourcePath := "fw/packages/wpkg/core.js",
    sourceTree := "fw/packages/wpkg", parentSourceTree := "fw/packages",
    contents := "var c = 0;" }

def c6wPkg : BT.Package :=
  { sourceTree := "fw/packages/wpkg", parentSourceTree := "fw/packages",
    files := [c6wA, c6wCore] }

theorem c6_witness :
    c6wA ∈ [c6wCore, c6wA] ∧
    ("could not find " ++ c6wPkg.sourceTree ++ " package dependency: " ++
      "wpkg/nope") ∈
      ["could not find fw/packages/wpkg package dependency: wpkg/nope"] :=
  c6_unresolved_logged_file_kept c6wPkg c6wA "wpkg/nope" [c6wCore, c6wA]
    ["could not find fw/packages/wpkg package dependency: wpkg/nope"]
    (by decide) (by decide) (by decide) (by decide) (by decide) (by decide)

/-! ## Claims C7 and C10: `BT.Target.orderedFrameworks`

`orderedFrameworks` resolves each declared framework name through
`project.findFramework(name, parent)` and recurses into the resolved
framework's own declared names with no visited set; the recursion is
modelled with explicit fuel (every recursive step consumes one unit), so
`none` means the fuel ran out — for a cyclic declaration graph this happens
at every fuel, i.e. the source recursion does not terminate. -/

namespace BT

/-- A framework as `orderedFrameworks` consumes it: its (concatenated)
declared framework-dependency names. -/
structure Framework where
  name : String
  frameworks : List String
deriving DecidableEq

/-- The owning project's `findFramework(name, parent)` search, abstracted
as the resolution function the target's project provides. -/
def FindFramework : Type := String → Option Framework → Option Framework

/-- Embedding of `processFramework` applied to a worklist of names against one parent:
an unresolved name contributes nothing; a resolved framework first has its
own declared names processed (depth-first, with itself as parent), then is
pushed.  The accumulator pairs the `ary` being built with the diagnostics
emitted along the way — the source emits none (its `console.log` calls are
commented out), so no branch appends to the log component. -/
def Target.processFrameworks (find : FindFramework) :
    Nat → List String → Option Framework →
      List Framework × List String → Option (List Framework × List String)
  | _, [], _, acc => some acc
  | 0, _ :: _, _, _ => none
  | fuel + 1, name :: rest, parent, acc =>
    match
      (match find name parent with
       | none => some acc
       | some fw =>
         match Target.processFrameworks find fuel fw.frameworks (some fw)
            acc with
         | none => none
         | some acc2 => some (acc2.1 ++ [fw], acc2.2)) with
    | none => none
    | some acc2 => Target.processFrameworks find fuel rest parent acc2

/-- Embedding of `BT.Target.orderedFrameworks` for a target owned by a project (the
source returns `[]` with no project; `find` is the project's resolution). -/
def Target.orderedFrameworks (find : FindFramework) (fuel : Nat)
    (frameworks : List String) : Option (List Framework × List String) :=
  Target.processFrameworks find fuel frameworks none ([], [])

/-- The claim's description of the same computation, written as a direct
expansion with no accumulator: each name in order contributes the
depth-first expansion of the frameworks its resolution declares, followed
by the resolved framework itself; an unresolved name contributes nothing. -/
def Target.expandFrameworks (find : FindFramework) :
    Nat → List String → Option Framework → Option (List Framework)
  | _, [], _ => some []
  | 0, _ :: _, _ => none
  | fuel + 1, name :: rest, parent =>
    match
      (match find name parent with
       | none => some []
       | some fw =>
         match Target.expandFrameworks find fuel fw.frameworks (some fw) with
         | none => none
         | some l => some (l ++ [fw])) with
    | none => none
    | some l =>
      match Target.expandFrameworks find fuel rest parent with
      | none => none
      | some l2 => some (l ++ l2)

/-- The accumulator-passing source recursion computes exactly the direct
expansion appended to the accumulator, and never logs. -/
theorem Target.processFrameworks_eq_expand (find : FindFramework) :
    ∀ (fuel : Nat) (names : List String) (parent : Option Framework)
      (acc : List Framework × List String),
      Target.processFrameworks find fuel names parent acc =
        (Target.expandFrameworks find fuel names parent).map
          (fun l => (acc.1 ++ l, acc.2)) := by
  intro fuel
  induction fuel with
  | zero =>
    intro names parent acc
    cases names with
    | nil => simp [Target.processFrameworks, Target.expandFrameworks]
    | cons n rest => simp [Target.processFrameworks, Target.expandFrameworks]
  | succ fuel ih =>
    intro names parent acc
    cases names with
    | nil => simp [Target.processFrameworks, Target.expandFrameworks]
    | cons name rest =>
      cases hfind : find name parent with
      | none =>
        simp only [Target.processFrameworks, Target.expandFrameworks, hfind]
        rw [ih]
        cases hrest : Target.expandFrameworks find fuel rest parent with
        | none => rfl
        | some l2 => simp
      | some fw =>
        simp only [Target.processFrameworks, Target.expandFrameworks, hfind]
        rw [ih fw.frameworks (some fw) acc]
        cases hdeps : Target.expandFrameworks find fuel fw.frameworks
            (some fw) with
        | none => rfl
        | some l =>
          simp only [Option.map_some']
          rw [ih]
          cases hrest : Target.expandFrameworks find fuel rest parent with
          | none => rfl
          | some l2 => simp

end BT

/-- Claim C7: for a target with an owning project, `orderedFrameworks`
processes the declared names in order; each name `findFramework` resolves
contributes, depth-first, the expansion of the frameworks it declares and
then the framework itself; an unresolved name contributes nothing; and no
diagnostic is ever emitted (the log component is always empty). -/
theorem c7_orderedFrameworks_refines_expansion (find : BT.FindFramework)
    (fuel : Nat) (names : List String) :
    BT.Target.orderedFrameworks find fuel names =
      (BT.Target.expandFrameworks find fuel names none).map
        (fun l => (l, ([] : List String))) := by
  unfold BT.Target.orderedFrameworks
  rw [BT.Target.processFrameworks_eq_expand]
  cases BT.Target.expandFrameworks find fuel names none with
  | none => rfl
  | some l => simp

/-- The framework X, declaring a dependency on Y. -/
def fwX : BT.Framework := { name := "X", frameworks := ["Y"] }

/-- The framework Y, declaring a dependency on X. -/
def fwY : BT.Framework := { name := "Y", frameworks := ["X"] }

/-- A project in which X and Y declare each other. -/
def c10Find : BT.FindFramework := fun name _ =>
  if name = "X" then some fwX else if name = "Y" then some fwY else none

theorem c10_mutual_divergence :
    ∀ (fuel : Nat) (parent : Option BT.Framework)
      (acc : List BT.Framework × List String),
      BT.Target.processFrameworks c10Find fuel ["X"] parent acc = none ∧
      BT.Target.processFrameworks c10Find fuel ["Y"] parent acc = none := by
  intro fuel
  induction fuel with
  | zero => intro parent acc; exact ⟨rfl, rfl⟩
  | succ fuel ih =>
    intro parent acc
    have hx : c10Find "X" parent = some fwX := by simp [c10Find]
    have hy : c10Find "Y" parent = some fwY := by simp [c10Find]
    constructor
    · show BT.Target.processFrameworks c10Find (fuel + 1) ["X"] parent acc
        = none
      simp only [BT.Target.processFrameworks, hx,
        show fwX.frameworks = ["Y"] from rfl, (ih (some fwX) acc).2]
    · show BT.Target.processFrameworks c10Find (fuel + 1) ["Y"] parent acc
        = none
      simp only [BT.Target.processFrameworks, hy,
        show fwY.frameworks = ["X"] from rfl, (ih (some fwY) acc).1]

/-- Claim C10: `processFramework` carries no visited set, so on a project
whose frameworks X and Y declare each other the recursion never finishes:
the fuel model returns `none` at every fuel. -/
theorem c10_orderedFrameworks_diverges_on_cycle :
    ∀ fuel : Nat,
      BT.Target.orderedFrameworks c10Find fuel ["X"] = none := by
  intro fuel
  exact (c10_mutual_divergence fuel none ([], [])).1

/-! ## Claim C9: output-directory failures during `build`/`buildApp`

Filesystem effects are explicit: a `BuildWorld` fixes which `mkdirSync`
calls throw (and the exception text), and which source files exist and
with what contents; a `BuildState` carries the directories that exist, the
files written so far and the console log, all append-only within a run. -/

namespace BT

/-- One discovered app as `buildApp` consumes it: its node name, its
`productionIndexHTML` text and its `javascriptSourceFiles` paths. -/
structure AppData where
  name : String
  productionIndexHTML : String
  javascriptSourceFiles : List String
deriving DecidableEq

/-- Ambient filesystem behavior of one run. -/
structure BuildWorld where
  mkdirFails : String → Bool
  mkdirError : String → String
  fileExists : String → Bool
  readFile : String → String

/-- Build-relevant process state, threaded through the run. -/
structure BuildState where
  dirs : List String
  writes : List (String × String)
  logs : List String
deriving DecidableEq

/-- The constant `path.join(__dirname, '../build')` used by `buildApp`. -/
def buildDirPath : String := "build"

/-- The constant `path.join(this.get('projectPath'), 'build')` used by `build`. -/
def projectBuildPath : String := "project/build"

/-- Model of `array.join(sep)` of JavaScript. -/
def joinSep (sep : String) : List String → String
  | [] => ""
  | [s] => s
  | s :: t :: rest => s ++ sep ++ joinSep sep (t :: rest)

/-- The `if (!path.existsSync(p)) try mkdirSync(p) catch log-and-abort`
pattern shared by `build` and `buildApp`; `label` distinguishes the
`build directory` and `app directory` messages.  Returns the new state and
whether execution continues. -/
def ensureDir (w : BuildWorld) (st : BuildState) (label p : String) :
    BuildState × Bool :=
  if st.dirs.contains p then (st, true)
  else if w.mkdirFails p then
    ({ st with logs := st.logs ++
        ["failed to create " ++ label ++ " directory at " ++ p,
         w.mkdirError p, "aborting build"] }, false)
  else ({ st with dirs := st.dirs ++ [p] }, true)

/-- The two files a successfully materialized app writes. -/
def appWrites (w : BuildWorld) (a : AppData) : List (String × String) :=
  [(buildDirPath ++ "/" ++ a.name ++ "/index.html", a.productionIndexHTML),
   (buildDirPath ++ "/" ++ a.name ++ "/application.js",
     joinSep ";\n" ((a.javascriptSourceFiles.filter w.fileExists).map
       w.readFile))]

/-- Embedding of `BT.Project.buildApp(name)`: find the app by name (logging a build
error if absent); ensure the build directory, then the app directory,
exist — a mkdir failure logs the message, the cause and `aborting build`
and returns from this app's step; otherwise write `index.html` and the
`;\n`-concatenation of the readable source files as `application.js`. -/
def Project.buildApp (w : BuildWorld) (apps : List AppData)
    (st : BuildState) (name : String) : BuildState :=
  match apps.find? (fun a => a.name == name) with
  | none => { st with logs := st.logs ++
      ["Build error: " ++ name ++ " could not be found."] }
  | some app =>
    let r1 := ensureDir w st "build" buildDirPath
    if !r1.2 then r1.1
    else
      let appPath := buildDirPath ++ "/" ++ app.name
      let r2 := ensureDir w r1.1 "app" appPath
      if !r2.2 then r2.1
      else
        let st2 := { r2.1 with writes := r2.1.writes ++
          [(appPath ++ "/index.html", app.productionIndexHTML)] }
        { st2 with writes := st2.writes ++
          [(appPath ++ "/application.js",
            joinSep ";\n" ((app.javascriptSourceFiles.filter
              w.fileExists).map w.readFile))] }

/-- The visitor pass of `BT.Project.build`: for each discovered app in
order, log `name ...` and run `buildApp(name)`. -/
def Project.buildApps (w : BuildWorld) (apps : List AppData)
    (st0 : BuildState) : BuildState :=
  apps.foldl
    (fun st app =>
      Project.buildApp w apps
        { st with logs := st.logs ++ [app.name ++ " ..."] } app.name)
    st0

/-- Embedding of `BT.Project.build`: build every app, then ensure the project build
directory and write the project `index.html` (a mkdir failure there logs
and aborts before the write). -/
def Project.build (w : BuildWorld) (apps : List AppData)
    (indexHTML : String) (st0 : BuildState) : BuildState :=
  let st := Project.buildApps w apps st0
  let st := { st with logs := st.logs ++
    ["Building apps in " ++ projectBuildPath] }
  let r := ensureDir w st "build" projectBuildPath
  if !r.2 then r.1
  else
    let st2 := { r.1 with logs := r.1.logs ++ ["Writing index.html ..."] }
    let st3 := { st2 with writes := st2.writes ++
      [(projectBuildPath ++ "/index.html", indexHTML)] }
    { st3 with logs := st3.logs ++ ["Done."] }

end BT

namespace BT

theorem string_append_left_cancel (a : String) (x y : String)
    (h : a ++ x = a ++ y) : x = y := by
  have hd := congrArg String.data h
  simp only [String.data_append] at hd
  exact String.ext (List.append_cancel_left hd)

/-- Generic name-keyed lookup with pairwise distinct keys. -/
theorem find?_name_of_nodup {α : Type} (key : α → String) :
    ∀ (l : List α) (x : α), x ∈ l → (l.map key).Nodup →
      l.find? (fun y => key y == key x) = some x := by
  intro l
  induction l with
  | nil => intro x hx; simp at hx
  | cons a rest ih =>
    intro x hx hnd
    rcases List.mem_cons.mp hx with rfl | hx'
    · simp [List.find?]
    · have hne : ¬(key a == key x) = true := by
        simp only [beq_iff_eq]
        intro heq
        have : key x ∈ rest.map key := List.mem_map.mpr ⟨x, hx', rfl⟩
        rw [← heq] at this
        exact (List.nodup_cons.mp (by simpa using hnd)).1 this
      simp only [List.find?, Bool.of_not_eq_true hne]
      exact ih x hx' (List.nodup_cons.mp (by simpa using hnd)).2

/-- A found app whose app-directory creation succeeds (or whose directory
already exists) is materialized: its two writes are appended, no log is
emitted, and at most its own app directory is added. -/
theorem Project.buildApp_normal (w : BuildWorld) (apps : List AppData)
    (st : BuildState) (b : AppData)
    (hfind : apps.find? (fun y => y.name == b.name) = some b)
    (hbd : buildDirPath ∈ st.dirs)
    (hok : w.mkdirFails (buildDirPath ++ "/" ++ b.name) = false) :
    ∃ d, Project.buildApp w apps st b.name =
      { dirs := st.dirs ++ d, writes := st.writes ++ appWrites w b,
        logs := st.logs } ∧
      ∀ p ∈ d, p = buildDirPath ++ "/" ++ b.name := by
  unfold Project.buildApp
  rw [hfind]
  by_cases hmem : (buildDirPath ++ "/" ++ b.name) ∈ st.dirs
  · refine ⟨[], ?_, by simp⟩
    simp [ensureDir, List.contains, List.elem_eq_mem, hbd, hmem, appWrites]
  · refine ⟨[buildDirPath ++ "/" ++ b.name], ?_, by simp⟩
    simp [ensureDir, List.contains, List.elem_eq_mem, hbd, hmem, hok,
      appWrites]

/-- A found app whose app directory does not exist and whose creation
fails only logs the failure, its cause and `aborting build`: nothing is
written and no directory is added. -/
theorem Project.buildApp_fails (w : BuildWorld) (apps : List AppData)
    (st : BuildState) (a : AppData)
    (hfind : apps.find? (fun y => y.name == a.name) = some a)
    (hbd : buildDirPath ∈ st.dirs)
    (hnodir : (buildDirPath ++ "/" ++ a.name) ∉ st.dirs)
    (hfail : w.mkdirFails (buildDirPath ++ "/" ++ a.name) = true) :
    Project.buildApp w apps st a.name =
      { st with logs := st.logs ++
        ["failed to create app directory at " ++
          (buildDirPath ++ "/" ++ a.name),
         w.mkdirError (buildDirPath ++ "/" ++ a.name),
         "aborting build"] } := by
  unfold Project.buildApp
  rw [hfind]
  simp [ensureDir, List.contains, List.elem_eq_mem, hbd, hnodir, hfail]

end BT

namespace BT

/-- A run over apps whose directory creations all succeed materializes
each one in order, logging only the `name ...` lines. -/
theorem Project.buildApps_fold_normal (w : BuildWorld)
    (apps : List AppData) :
    ∀ (l : List AppData) (st : BuildState),
      (∀ b ∈ l, apps.find? (fun y => y.name == b.name) = some b) →
      (∀ b ∈ l, w.mkdirFails (buildDirPath ++ "/" ++ b.name) = false) →
      buildDirPath ∈ st.dirs →
      ∃ d,
        l.foldl
          (fun st app =>
            Project.buildApp w apps
              { st with logs := st.logs ++ [app.name ++ " ..."] } app.name)
          st =
          { dirs := st.dirs ++ d,
            writes := st.writes ++ (l.map (appWrites w)).flatten,
            logs := st.logs ++ l.map (fun b => b.name ++ " ...") } ∧
        ∀ p ∈ d, ∃ b ∈ l, p = buildDirPath ++ "/" ++ b.name := by
  intro l
  induction l with
  | nil => intro st _ _ _; exact ⟨[], by simp, by simp⟩
  | cons b rest ih =>
    intro st hfind hok hbd
    simp only [List.foldl_cons]
    obtain ⟨d1, heq1, hd1⟩ := Project.buildApp_normal w apps
      { st with logs := st.logs ++ [b.name ++ " ..."] } b
      (hfind b (List.mem_cons_self b rest))
      hbd (hok b (List.mem_cons_self b rest))
    rw [heq1]
    obtain ⟨d2, heq2, hd2⟩ := ih
      { dirs := st.dirs ++ d1, writes := st.writes ++ appWrites w b,
        logs := (st.logs ++ [b.name ++ " ..."]) }
      (fun x hx => hfind x (List.mem_cons_of_mem b hx))
      (fun x hx => hok x (List.mem_cons_of_mem b hx))
      (List.mem_append_left d1 hbd)
    rw [heq2]
    refine ⟨d1 ++ d2, by simp, ?_⟩
    intro p hp
    rcases List.mem_append.mp hp with hp1 | hp2
    · exact ⟨b, List.mem_cons_self b rest, hd1 p hp1⟩
    · obtain ⟨x, hx, hpx⟩ := hd2 p hp2
      exact ⟨x, List.mem_cons_of_mem b hx, hpx⟩

end BT

/-- Claim C9, amended: when creating an app's output directory fails
during `buildApp`, the failure and its cause are logged and that app's
materialization is aborted (it writes nothing), but the overall build is
not aborted: every other app, before and after the failing one, is still
materialized exactly as usual, and output already written earlier in the
run (including `st0.writes`) is left intact. -/
theorem c9_mkdir_failure_aborts_only_that_app (w : BT.BuildWorld)
    (l1 l2 : List BT.AppData) (a : BT.AppData) (st0 : BT.BuildState)
    (hnd : ((l1 ++ a :: l2).map (fun x => x.name)).Nodup)
    (hbd : BT.buildDirPath ∈ st0.dirs)
    (hfail : w.mkdirFails (BT.buildDirPath ++ "/" ++ a.name) = true)
    (hok : ∀ b ∈ l1 ++ l2,
      w.mkdirFails (BT.buildDirPath ++ "/" ++ b.name) = false)
    (hnodir : (BT.buildDirPath ++ "/" ++ a.name) ∉ st0.dirs) :
    (BT.Project.buildApps w (l1 ++ a :: l2) st0).writes =
      st0.writes ++ (l1.map (BT.appWrites w)).flatten ++
        (l2.map (BT.appWrites w)).flatten ∧
    (BT.Project.buildApps w (l1 ++ a :: l2) st0).logs =
      st0.logs ++ l1.map (fun b => b.name ++ " ...") ++
        ([a.name ++ " ...",
          "failed to create app directory at " ++
            (BT.buildDirPath ++ "/" ++ a.name),
          w.mkdirError (BT.buildDirPath ++ "/" ++ a.name),
          "aborting build"] ++ l2.map (fun b => b.name ++ " ...")) := by
  have happs : ∀ b ∈ l1 ++ a :: l2,
      (l1 ++ a :: l2).find? (fun y => y.name == b.name) = some b :=
    fun b hb => BT.find?_name_of_nodup (fun x => x.name) _ b hb hnd
  unfold BT.Project.buildApps
  rw [List.foldl_append]
  obtain ⟨d1, heq1, hd1⟩ := BT.Project.buildApps_fold_normal w _ l1 st0
    (fun b hb => happs b (List.mem_append_left _ hb))
    (fun b hb => hok b (List.mem_append_left _ hb)) hbd
  rw [heq1]
  simp only [List.foldl_cons]
  have hst1bd : BT.buildDirPath ∈ st0.dirs ++ d1 :=
    List.mem_append_left d1 hbd
  have hnodir1 : (BT.buildDirPath ++ "/" ++ a.name) ∉ st0.dirs ++ d1 := by
    intro hmem
    rcases List.mem_append.mp hmem with h | h
    · exact hnodir h
    · obtain ⟨b, hb, hpb⟩ := hd1 _ h
      have hname : a.name = b.name :=
        BT.string_append_left_cancel (BT.buildDirPath ++ "/") _ _ hpb
      have hnda := hnd
      rw [List.map_append, List.map_cons] at hnda
      have hdisj := (List.nodup_append.mp hnda).2.2
      have hmem1 : a.name ∈ List.map (fun x => x.name) l1 := by
        rw [hname]; exact List.mem_map.mpr ⟨b, hb, rfl⟩
      exact hdisj hmem1 (List.mem_cons_self _ _)
  rw [BT.Project.buildApp_fails w (l1 ++ a :: l2)
    { dirs := st0.dirs ++ d1,
      writes := st0.writes ++ (l1.map (BT.appWrites w)).flatten,
      logs := (st0.logs ++ l1.map (fun b => b.name ++ " ...")) ++
        [a.name ++ " ..."] } a
    (happs a (List.mem_append_right l1 (List.mem_cons_self a l2)))
    hst1bd hnodir1 hfail]
  obtain ⟨d2, heq2, _⟩ := BT.Project.buildApps_fold_normal w
    (l1 ++ a :: l2) l2
    { dirs := st0.dirs ++ d1,
      writes := st0.writes ++ (l1.map (BT.appWrites w)).flatten,
      logs := (st0.logs ++ l1.map (fun b => b.name ++ " ...")) ++
        [a.name ++ " ..."] ++
        ["failed to create app directory at " ++
          (BT.buildDirPath ++ "/" ++ a.name),
         w.mkdirError (BT.buildDirPath ++ "/" ++ a.name),
         "aborting build"] }
    (fun b hb => happs b (List.mem_append_right l1
      (List.mem_cons_of_mem a hb)))
    (fun b hb => hok b (List.mem_append_right l1 hb)) hst1bd
  rw [heq2]
  constructor
  · simp
  · simp

/-- First app of the counterexample run (its output directory creation
will fail). -/
def c9App1 : BT.AppData :=
  { name := "app1", productionIndexHTML := "<html>1</html>",
    javascriptSourceFiles := ["src/a.js"] }

/-- Second app of the counterexample run. -/
def c9App2 : BT.AppData :=
  { name := "app2", productionIndexHTML := "<html>2</html>",
    javascriptSourceFiles := [] }

/-- A run in which only `mkdirSync("build/app1")` throws. -/
def c9World : BT.BuildWorld :=
  { mkdirFails := fun p => p == "build/app1",
    mkdirError := fun _ => "Error: EACCES, permission denied",
    fileExists := fun _ => false, readFile := fun _ => "" }

/-- Claim C9, counterexample: creating `build/app1` fails during app1's
build step; the failure and its cause are logged and app1 writes nothing,
but the overall build is *not* aborted: app2, discovered after app1, is
still materialized (its index.html is written). -/
theorem c9_counterexample :
    ("failed to create app directory at build/app1") ∈
      (BT.Project.build c9World [c9App1, c9App2] "<idx>"
        ⟨[], [], []⟩).logs ∧
    ("Error: EACCES, permission denied") ∈
      (BT.Project.build c9World [c9App1, c9App2] "<idx>"
        ⟨[], [], []⟩).logs ∧
    ("aborting build") ∈
      (BT.Project.build c9World [c9App1, c9App2] "<idx>"
        ⟨[], [], []⟩).logs ∧
    ("build/app1/index.html", c9App1.productionIndexHTML) ∉
      (BT.Project.build c9World [c9App1, c9App2] "<idx>"
        ⟨[], [], []⟩).writes ∧
    ("build/app2/index.html", c9App2.productionIndexHTML) ∈
      (BT.Project.build c9World [c9App1, c9App2] "<idx>"
        ⟨[], [], []⟩).writes := by
  decide

def c9wA : BT.AppData :=
  { name := "wa", productionIndexHTML := "<html>wa</html>",
    javascriptSourceFiles := [] }

def c9wB : BT.AppData :=
  { name := "wb", productionIndexHTML := "<html>wb</html>",
    javascriptSourceFiles := [] }

def c9wC : BT.AppData :=
  { name := "wc", productionIndexHTML := "<html>wc</html>",
    javascriptSourceFiles := [] }

/-- A run in which only `mkdirSync("build/wa")` throws. -/
def c9wWorld : BT.BuildWorld :=
  { mkdirFails := fun p => p == "build/wa",
    mkdirError := fun _ => "Error: EPERM",
    fileExists := fun _ => false, readFile := fun _ => "" }

def c9wSt0 : BT.BuildState := ⟨["build"], [("old/file.txt", "old")], []⟩

theorem c9_witness :
    (BT.Project.buildApps c9wWorld ([c9wB] ++ c9wA :: [c9wC])
        c9wSt0).writes =
      c9wSt0.writes ++ ([c9wB].map (BT.appWrites c9wWorld)).flatten ++
        ([c9wC].map (BT.appWrites c9wWorld)).flatten ∧
    (BT.Project.buildApps c9wWorld ([c9wB] ++ c9wA :: [c9wC])
        c9wSt0).logs =
      c9wSt0.logs ++ [c9wB].map (fun b => b.name ++ " ...") ++
        ([c9wA.name ++ " ...",
          "failed to create app directory at " ++
            (BT.buildDirPath ++ "/" ++ c9wA.name),
          c9wWorld.mkdirError (BT.buildDirPath ++ "/" ++ c9wA.name),
          "aborting build"] ++ [c9wC].map (fun b => b.name ++ " ...")) :=
  c9_mkdir_failure_aborts_only_that_app c9wWorld [c9wB] [c9wC] c9wA c9wSt0
    (by decide) (by decide) (by decide) (by decide) (by decide)

/-! ## Claim C8: `scRequireDependencies` against the declarative pattern

The regular expression `sc_require\((['"])(.*)\1\)` is characterized
declaratively: a statement matches when it decomposes around the literal,
a quote, a capture of `.`-matchable characters, the same quote and a
closing parenthesis; `exec` returns the capture of the leftmost-starting
match and, at that position, the greedy (longest) capture.  The theorems
below prove the operational scanner `scExec` equivalent to this
characterization. -/

/-- A decomposition of `s` witnessing a match whose literal starts after
`pre` and whose capture is `cap`. -/
def MatchAt (s pre cap : List Char) : Prop :=
  ∃ (q : Char) (post : List Char), isQuote q ∧ (∀ c ∈ cap, dotChar c) ∧
    s = pre ++ (scLit ++ (q :: (cap ++ (q :: (')' :: post)))))

/-- The capture produced by JavaScript `exec` semantics: some match starts
at `pre`, no match starts earlier, and among the matches starting at `pre`
the capture is longest. -/
def LeftmostGreedyMatch (s cap : List Char) : Prop :=
  ∃ pre, MatchAt s pre cap ∧
    ∀ pre2 cap2, MatchAt s pre2 cap2 →
      pre.length ≤ pre2.length ∧
      (pre2.length = pre.length → cap2.length ≤ cap.length)

/-- The close searched by `lastCapture`: `r` decomposes as an all-dot
capture followed by the quote and `)`. -/
def CloseAt (q : Char) (r cap : List Char) : Prop :=
  (∀ c ∈ cap, dotChar c) ∧ ∃ post, r = cap ++ (q :: (')' :: post))

theorem stripLit_eq_some :
    ∀ (p l r : List Char), stripLit p l = some r ↔ l = p ++ r := by
  intro p
  induction p with
  | nil => intro l r; simp [stripLit, eq_comm]
  | cons a p2 ih =>
    intro l r
    cases l with
    | nil => simp [stripLit]
    | cons c cs =>
      simp only [stripLit]
      by_cases hca : c = a
      · rw [if_pos hca, ih, hca]
        simp
      · rw [if_neg hca]
        simp only [List.cons_append, List.cons.injEq]
        constructor
        · intro h; simp at h
        · rintro ⟨h1, _⟩; exact absurd h1 hca

/-- Unfolding of `CloseAt` along one character. -/
theorem closeAt_cons (q a : Char) (rest : List Char) :
    ∀ cap, CloseAt q (a :: rest) cap ↔
      (cap = [] ∧ a = q ∧ rest.head? = some ')') ∨
      (∃ cap2, cap = a :: cap2 ∧ dotChar a ∧ CloseAt q rest cap2) := by
  intro cap
  constructor
  · rintro ⟨hdots, post, hpost⟩
    cases cap with
    | nil =>
      simp only [List.nil_append] at hpost
      obtain ⟨heq, hrest⟩ := List.cons.inj hpost
      exact Or.inl ⟨rfl, heq, by rw [hrest]; rfl⟩
    | cons c0 cap2 =>
      simp only [List.cons_append] at hpost
      obtain ⟨heq, hrest⟩ := List.cons.inj hpost
      subst heq
      exact Or.inr ⟨cap2, rfl, hdots a (List.mem_cons_self a cap2),
        fun c hc => hdots c (List.mem_cons_of_mem a hc), post, hrest⟩
  · rintro (⟨rfl, rfl, hhead⟩ | ⟨cap2, rfl, hdot, hdots, post, hpost⟩)
    · cases rest with
      | nil => simp at hhead
      | cons b rest2 =>
        simp only [List.head?_cons, Option.some.injEq] at hhead
        exact ⟨by simp, rest2, by rw [hhead]; rfl⟩
    · refine ⟨fun c hc => ?_, post, by rw [hpost]; rfl⟩
      rcases List.mem_cons.mp hc with rfl | hc2
      · exact hdot
      · exact hdots c hc2

theorem lastCapture_spec (q : Char) :
    ∀ (r : List Char),
      (∀ cap, lastCapture q r = some cap →
        CloseAt q r cap ∧ ∀ cap2, CloseAt q r cap2 →
          cap2.length ≤ cap.length) ∧
      (lastCapture q r = none → ∀ cap, ¬ CloseAt q r cap) := by
  intro r
  induction r with
  | nil =>
    constructor
    · intro cap h; simp [lastCapture] at h
    · intro _ cap hc
      obtain ⟨_, post, hpost⟩ := hc
      have := congrArg List.length hpost
      simp at this
      omega
  | cons a rest ih =>
    constructor
    · intro cap h
      simp only [lastCapture] at h
      cases hrec : (if dotChar a then lastCapture q rest else none) with
      | some cap0 =>
        rw [hrec] at h
        simp only [Option.some.injEq] at h
        have hdot : dotChar a := by
          by_cases hd : dotChar a
          · exact hd
          · rw [if_neg hd] at hrec; simp at hrec
        rw [if_pos hdot] at hrec
        obtain ⟨hc0, hmax0⟩ := ih.1 cap0 hrec
        constructor
        · rw [← h]
          exact (closeAt_cons q a rest (a :: cap0)).mpr
            (Or.inr ⟨cap0, rfl, hdot, hc0⟩)
        · intro cap2 hc2
          rcases (closeAt_cons q a rest cap2).mp hc2 with ⟨rfl, _, _⟩ |
            ⟨cap3, rfl, _, hc3⟩
          · rw [← h]; simp
          · have := hmax0 cap3 hc3
            rw [← h]
            simp only [List.length_cons]
            omega
      | none =>
        rw [hrec] at h
        by_cases hcond : a = q ∧ rest.head? = some ')'
        · rw [if_pos hcond] at h
          simp only [Option.some.injEq] at h
          constructor
          · rw [← h]
            exact (closeAt_cons q a rest []).mpr
              (Or.inl ⟨rfl, hcond.1, hcond.2⟩)
          · intro cap2 hc2
            rcases (closeAt_cons q a rest cap2).mp hc2 with ⟨rfl, _, _⟩ |
              ⟨cap3, rfl, hdot2, hc3⟩
            · rw [← h]
            · exfalso
              by_cases hd : dotChar a
              · rw [if_pos hd] at hrec
                exact ih.2 hrec cap3 hc3
              · exact hd hdot2
        · rw [if_neg hcond] at h
          simp at h
    · intro h cap hc
      simp only [lastCapture] at h
      cases hrec : (if dotChar a then lastCapture q rest else none) with
      | some cap0 => rw [hrec] at h; simp at h
      | none =>
        rw [hrec] at h
        by_cases hcond : a = q ∧ rest.head? = some ')'
        · rw [if_pos hcond] at h; simp at h
        · rcases (closeAt_cons q a rest cap).mp hc with ⟨rfl, haq, hhead⟩ |
            ⟨cap2, rfl, hdot, hc2⟩
          · exact hcond ⟨haq, hhead⟩
          · by_cases hd : dotChar a
            · rw [if_pos hd] at hrec
              exact ih.2 hrec cap2 hc2
            · exact hd hdot

theorem matchAt_nil_decomp (l : List Char) (q0 : Char) (r : List Char)
    (hl : l = scLit ++ (q0 :: r)) :
    ∀ cap, MatchAt l [] cap ↔ (isQuote q0 ∧ CloseAt q0 r cap) := by
  intro cap
  constructor
  · rintro ⟨q, post, hq, hdots, heq⟩
    rw [hl] at heq
    simp only [List.nil_append] at heq
    have h2 := List.append_cancel_left heq
    obtain ⟨hq0, hr⟩ := List.cons.inj h2
    subst hq0
    exact ⟨hq, hdots, post, hr⟩
  · rintro ⟨hq, hdots, post, hpost⟩
    exact ⟨q0, post, hq, hdots, by rw [hl, hpost]; simp⟩

theorem execAt_spec (l : List Char) :
    (∀ cap, execAt l = some cap → MatchAt l [] cap ∧
      ∀ cap2, MatchAt l [] cap2 → cap2.length ≤ cap.length) ∧
    (execAt l = none → ∀ cap, ¬ MatchAt l [] cap) := by
  cases hstrip : stripLit scLit l with
  | none =>
    have he : execAt l = none := by unfold execAt; rw [hstrip]
    refine ⟨fun cap h => by rw [he] at h; simp at h, fun _ cap hm => ?_⟩
    obtain ⟨q, post, _, _, heq⟩ := hm
    simp only [List.nil_append] at heq
    rw [(stripLit_eq_some scLit l _).mpr heq] at hstrip
    simp at hstrip
  | some rest =>
    have hl : l = scLit ++ rest := (stripLit_eq_some scLit l rest).mp hstrip
    cases rest with
    | nil =>
      have he : execAt l = none := by unfold execAt; rw [hstrip]
      refine ⟨fun cap h => by rw [he] at h; simp at h, fun _ cap hm => ?_⟩
      obtain ⟨q, post, _, _, heq⟩ := hm
      simp only [List.nil_append] at heq
      rw [hl] at heq
      have := List.append_cancel_left
        (heq.symm.trans (List.append_nil scLit).symm)
      simp at this
    | cons q0 r =>
      have he : execAt l = if isQuote q0 then lastCapture q0 r else none :=
        by unfold execAt; rw [hstrip]
      by_cases hq0 : isQuote q0
      · rw [if_pos hq0] at he
        constructor
        · intro cap h
          rw [he] at h
          obtain ⟨hclose, hmax⟩ := (lastCapture_spec q0 r).1 cap h
          refine ⟨(matchAt_nil_decomp l q0 r hl cap).mpr ⟨hq0, hclose⟩, ?_⟩
          intro cap2 hm2
          exact hmax cap2 ((matchAt_nil_decomp l q0 r hl cap2).mp hm2).2
        · intro h cap hm
          rw [he] at h
          exact (lastCapture_spec q0 r).2 h cap
            ((matchAt_nil_decomp l q0 r hl cap).mp hm).2
      · rw [if_neg hq0] at he
        refine ⟨fun cap h => by rw [he] at h; simp at h,
          fun _ cap hm => ?_⟩
        exact hq0 ((matchAt_nil_decomp l q0 r hl cap).mp hm).1

theorem matchAt_cons (c : Char) (cs pre cap : List Char) :
    MatchAt (c :: cs) (c :: pre) cap ↔ MatchAt cs pre cap := by
  constructor
  · rintro ⟨q, post, hq, hdots, heq⟩
    simp only [List.cons_append] at heq
    exact ⟨q, post, hq, hdots, (List.cons.inj heq).2⟩
  · rintro ⟨q, post, hq, hdots, heq⟩
    exact ⟨q, post, hq, hdots, by rw [List.cons_append, ← heq]⟩

theorem matchAt_cons_elim (c : Char) (cs pre cap : List Char)
    (h : MatchAt (c :: cs) pre cap) :
    pre = [] ∨ ∃ pre2, pre = c :: pre2 ∧ MatchAt cs pre2 cap := by
  cases pre with
  | nil => exact Or.inl rfl
  | cons p0 pre2 =>
    obtain ⟨q, post, hq, hdots, heq⟩ := h
    simp only [List.cons_append] at heq
    obtain ⟨hp0, hrest⟩ := List.cons.inj heq
    subst hp0
    exact Or.inr ⟨pre2, rfl, q, post, hq, hdots, hrest⟩

theorem scLit_length : scLit.length = 11 := rfl

theorem scExec_spec :
    ∀ s : List Char,
      (∀ cap, scExec s = some cap → LeftmostGreedyMatch s cap) ∧
      (scExec s = none → ∀ pre cap, ¬ MatchAt s pre cap) := by
  intro s
  induction s with
  | nil =>
    constructor
    · intro cap h; simp [scExec] at h
    · intro _ pre cap hm
      obtain ⟨q, post, _, _, heq⟩ := hm
      have := congrArg List.length heq
      simp [scLit_length] at this
      omega
  | cons c cs ih =>
    constructor
    · intro cap h
      simp only [scExec] at h
      cases hexec : execAt (c :: cs) with
      | some cap0 =>
        rw [hexec] at h
        simp only [Option.some.injEq] at h
        subst h
        refine ⟨[], ((execAt_spec (c :: cs)).1 cap0 hexec).1, ?_⟩
        intro pre2 cap2 hm2
        refine ⟨Nat.zero_le _, fun hlen => ?_⟩
        have hpre2 : pre2 = [] := List.length_eq_zero.mp (by simpa using hlen)
        subst hpre2
        exact ((execAt_spec (c :: cs)).1 cap0 hexec).2 cap2 hm2
      | none =>
        rw [hexec] at h
        obtain ⟨pre, hm, hmax⟩ := ih.1 cap h
        refine ⟨c :: pre, (matchAt_cons c cs pre cap).mpr hm, ?_⟩
        intro pre2 cap2 hm2
        rcases matchAt_cons_elim c cs pre2 cap2 hm2 with rfl | ⟨pre3, rfl, hm3⟩
        · exact absurd hm2 ((execAt_spec (c :: cs)).2 hexec cap2)
        · obtain ⟨hle, heq⟩ := hmax pre3 cap2 hm3
          refine ⟨by simpa using Nat.succ_le_succ hle, fun hlen => ?_⟩
          exact heq (by simpa using hlen)
    · intro h pre cap hm
      simp only [scExec] at h
      cases hexec : execAt (c :: cs) with
      | some cap0 => rw [hexec] at h; simp at h
      | none =>
        rw [hexec] at h
        rcases matchAt_cons_elim c cs pre cap hm with rfl | ⟨pre2, rfl, hm2⟩
        · exact (execAt_spec (c :: cs)).2 hexec cap hm
        · exact ih.2 h pre2 cap hm2

/-- The leftmost-greedy capture is unique. -/
theorem leftmostGreedyMatch_unique (s cap cap2 : List Char)
    (h1 : LeftmostGreedyMatch s cap) (h2 : LeftmostGreedyMatch s cap2) :
    cap = cap2 := by
  obtain ⟨pre1, m1, max1⟩ := h1
  obtain ⟨pre2, m2, max2⟩ := h2
  have hlen : pre1.length = pre2.length :=
    Nat.le_antisymm (max1 pre2 cap2 m2).1 (max2 pre1 cap m1).1
  have hclen : cap.length = cap2.length :=
    Nat.le_antisymm ((max2 pre1 cap m1).2 hlen)
      ((max1 pre2 cap2 m2).2 hlen.symm)
  obtain ⟨q1, post1, hq1, _, heq1⟩ := m1
  obtain ⟨q2, post2, hq2, _, heq2⟩ := m2
  have heq := heq1.symm.trans heq2
  obtain ⟨hpre, hrest⟩ := List.append_inj heq hlen
  have h3 := List.append_cancel_left hrest
  obtain ⟨hq, h4⟩ := List.cons.inj h3
  exact (List.append_inj h4 hclen).1

/-- Claim C8: `BT.PackageFile.scRequireDependencies` returns, in order of
first appearance, one identifier per line-and-semicolon-separated statement
of the file contents that matches `sc_require('path')` or
`sc_require("path")` (the capture being the leftmost-greedy one `exec`
produces), each prefixed with the package's path relative to its parent
source tree; a file with no matching statement yields the empty list. -/
theorem c8_scRequireDependencies_characterized (f : BT.PackageFile) :
    (f.scRequireDependencies = (statements f.contents.data).filterMap
      (fun s => (scExec s).map
        (fun cap => pathJoin f.requirePath (String.mk cap)))) ∧
    (∀ s cap, scExec s = some cap ↔ LeftmostGreedyMatch s cap) ∧
    (∀ s, scExec s = none ↔ ∀ pre cap, ¬ MatchAt s pre cap) ∧
    (f.scRequireDependencies = [] ↔
      ∀ s ∈ statements f.contents.data, ∀ pre cap, ¬ MatchAt s pre cap) := by
  have hiff_none : ∀ s, scExec s = none ↔
      ∀ pre cap, ¬ MatchAt s pre cap := by
    intro s
    constructor
    · exact (scExec_spec s).2
    · intro h
      cases hx : scExec s with
      | none => rfl
      | some cap =>
        obtain ⟨pre, hm, _⟩ := (scExec_spec s).1 cap hx
        exact absurd hm (h pre cap)
  have hiff_some : ∀ s cap, scExec s = some cap ↔
      LeftmostGreedyMatch s cap := by
    intro s cap
    constructor
    · exact (scExec_spec s).1 cap
    · intro hlgm
      cases hx : scExec s with
      | none =>
        obtain ⟨pre, hm, _⟩ := hlgm
        exact absurd hm ((scExec_spec s).2 hx pre cap)
      | some cap2 =>
        exact congrArg some (leftmostGreedyMatch_unique s cap2 cap
          ((scExec_spec s).1 cap2 hx) hlgm)
  have hfirst : f.scRequireDependencies =
      (statements f.contents.data).filterMap
        (fun s => (scExec s).map
          (fun cap => pathJoin f.requirePath (String.mk cap))) := by
    unfold BT.PackageFile.scRequireDependencies
      BT.File.scRequireDependencies
    rw [List.map_map, List.map_filterMap]
    rfl
  refine ⟨hfirst, hiff_some, hiff_none, ?_⟩
  rw [hfirst, List.filterMap_eq_nil_iff]
  constructor
  · intro h s hs
    have := h s hs
    rw [Option.map_eq_none'] at this
    exact (hiff_none s).mp this
  · intro h s hs
    rw [Option.map_eq_none']
    exact (hiff_none s).mpr (h s hs)
